import Mathlib

/-!
Verification of the Media Format Reconciliation Engine of the MediaMaestro
repository (`src/backend/utils/file_manager.py`).

The Python code is shallowly embedded over `List Char` (ASCII fragment of
Python `str`; the Unicode-only behaviour of `str.lower`, `\w` and `\s` is out
of scope, every concrete input used below is ASCII).  Python floats are
modelled as exact rationals (`ℚ`); the divergence window of binary rounding
around the 0.8 threshold needs strings of length beyond 10^16 and is out of
scope.  `re.sub(r'[^\w\s]', '', s)` keeps exactly the word characters
(letters, digits, underscore) and whitespace, `re.sub(r'\s+', ' ', s)`
replaces every maximal whitespace run by a single blank, `str.strip` trims
whitespace at both ends.
-/

namespace MediaMaestro

/-- Characters matched by Python `\s` (ASCII fragment): blank, tab, newline,
carriage return, vertical tab, form feed. -/
def isSpaceChar (c : Char) : Bool :=
  c.toNat = 32 || c.toNat = 9 || c.toNat = 10 || c.toNat = 13 ||
  c.toNat = 11 || c.toNat = 12

/-- Characters matched by Python `\w` (ASCII fragment): upper-case letters,
lower-case letters, digits and the underscore (code 95). -/
def isWordChar (c : Char) : Bool :=
  (65 ≤ c.toNat && c.toNat ≤ 90) || (97 ≤ c.toNat && c.toNat ≤ 122) ||
  (48 ≤ c.toNat && c.toNat ≤ 57) || c.toNat = 95

/-- A character kept by `re.sub(r'[^\w\s]', '', ·)`. -/
def isKeptChar (c : Char) : Bool :=
  isWordChar c || isSpaceChar c

/-- `re.sub(r'\s+', ' ', ·)`: every maximal whitespace run becomes one
single blank.  Within a run all characters but the last are dropped and the
last one is replaced by `' '`. -/
def collapseWS : List Char → List Char
  | [] => []
  | [c] => if isSpaceChar c then [' '] else [c]
  | c₁ :: c₂ :: cs =>
    if isSpaceChar c₁ then
      if isSpaceChar c₂ then collapseWS (c₂ :: cs)
      else ' ' :: collapseWS (c₂ :: cs)
    else c₁ :: collapseWS (c₂ :: cs)

/-- Python `str.strip`, left half: drop leading whitespace. -/
def lstripWS (l : List Char) : List Char := l.dropWhile isSpaceChar

/-- Python `str.strip`, right half: drop trailing whitespace. -/
def rstripWS (l : List Char) : List Char := (l.reverse.dropWhile isSpaceChar).reverse

/-- Python `str.strip`. -/
def stripWS (l : List Char) : List Char := rstripWS (lstripWS l)

/-- The shared normalization pipeline of `_normalize_filename` and
`_normalize_track_name`: lower-case, drop characters outside `\w` and `\s`,
collapse whitespace runs to single blanks, strip. -/
def normCore (l : List Char) : List Char :=
  stripWS (collapseWS ((l.map Char.toLower).filter isKeptChar))

/-- `FileManager._normalize_filename` (file_manager.py lines 237-244). -/
def _normalize_filename (filename : List Char) : List Char :=
  normCore filename

/-- `FileManager._normalize_track_name` (file_manager.py lines 316-321):
normalizes the string `f"{title} - {artist}"` by the shared rule. -/
def _normalize_track_name (title artist : List Char) : List Char :=
  normCore (title ++ (' ' :: '-' :: ' ' :: []) ++ artist)

/-! ### Character-level lemmas -/

theorem toNat_ofNat_of_valid {n : Nat} (h : n.isValidChar) :
    (Char.ofNat n).toNat = n := by
  unfold Char.ofNat
  rw [dif_pos h]
  rfl

theorem toLower_toNat (c : Char) :
    c.toLower.toNat = if 65 ≤ c.toNat ∧ c.toNat ≤ 90 then c.toNat + 32 else c.toNat := by
  unfold Char.toLower
  by_cases h : c.toNat ≥ 65 ∧ c.toNat ≤ 90
  · rw [if_pos h, if_pos h, toNat_ofNat_of_valid (Or.inl (by omega))]
  · rw [if_neg h, if_neg h]

theorem toLower_eq_self_of_lt (c : Char) (h : c.toNat < 65) : c.toLower = c := by
  unfold Char.toLower
  rw [if_neg (by omega)]

theorem char_toNat_inj {x y : Char} (h : x.toNat = y.toNat) : x = y := by
  have h' := congrArg Char.ofNat h
  rwa [Char.ofNat_toNat, Char.ofNat_toNat] at h'

theorem toLower_toLower (c : Char) : c.toLower.toLower = c.toLower := by
  have h1 := toLower_toNat c
  have h2 := toLower_toNat c.toLower
  apply char_toNat_inj
  by_cases h : 65 ≤ c.toNat ∧ c.toNat ≤ 90
  · rw [if_pos h] at h1
    rw [h1, if_neg (by omega)] at h2
    rw [h2, h1]
  · rw [if_neg h] at h1
    rw [h1, if_neg h] at h2
    rw [h2, h1]

theorem isWordChar_toLower (c : Char) (h : isWordChar c = true) :
    isWordChar c.toLower = true := by
  unfold isWordChar at *
  have h1 := toLower_toNat c
  simp only [Bool.or_eq_true, Bool.and_eq_true, decide_eq_true_eq] at *
  by_cases hc : 65 ≤ c.toNat ∧ c.toNat ≤ 90
  · rw [if_pos hc] at h1
    left; left; right; omega
  · rw [if_neg hc] at h1
    rw [h1] at *
    exact h

theorem isSpaceChar_toLower (c : Char) (h : isSpaceChar c = true) :
    c.toLower = c := by
  unfold isSpaceChar at h
  simp only [Bool.or_eq_true, decide_eq_true_eq] at h
  apply toLower_eq_self_of_lt
  omega

theorem isSpaceChar_blank : isSpaceChar ' ' = true := by decide

theorem not_space_of_word (c : Char) (h : isWordChar c = true) :
    isSpaceChar c = false := by
  by_contra hcon
  have hs : isSpaceChar c = true := by
    revert hcon; cases isSpaceChar c <;> simp
  unfold isWordChar at h
  unfold isSpaceChar at hs
  simp only [Bool.or_eq_true, Bool.and_eq_true, decide_eq_true_eq] at h hs
  omega

theorem isKeptChar_iff (c : Char) :
    isKeptChar c = true ↔ isWordChar c = true ∨ isSpaceChar c = true := by
  unfold isKeptChar
  simp [Bool.or_eq_true]

/-! ### Properties of `collapseWS` -/

/-- The relation "not both whitespace" between adjacent characters. -/
def NoTwoSp (x y : Char) : Prop := ¬(isSpaceChar x = true ∧ isSpaceChar y = true)

theorem collapseWS_singleton_space (c : Char) (h : isSpaceChar c = true) :
    collapseWS [c] = [' '] := by
  simp [collapseWS, h]

theorem collapseWS_singleton_nonspace (c : Char) (h : isSpaceChar c = false) :
    collapseWS [c] = [c] := by
  simp [collapseWS, h]

theorem collapseWS_cons_nonspace (c : Char) (cs : List Char)
    (h : isSpaceChar c = false) : collapseWS (c :: cs) = c :: collapseWS cs := by
  cases cs with
  | nil => simp [collapseWS, h]
  | cons c₂ cs₂ => simp [collapseWS, h]

theorem collapseWS_cons_cons_sp_sp (c₁ c₂ : Char) (cs : List Char)
    (h₁ : isSpaceChar c₁ = true) (h₂ : isSpaceChar c₂ = true) :
    collapseWS (c₁ :: c₂ :: cs) = collapseWS (c₂ :: cs) := by
  simp [collapseWS, h₁, h₂]

theorem collapseWS_cons_cons_sp_non (c₁ c₂ : Char) (cs : List Char)
    (h₁ : isSpaceChar c₁ = true) (h₂ : isSpaceChar c₂ = false) :
    collapseWS (c₁ :: c₂ :: cs) = ' ' :: collapseWS (c₂ :: cs) := by
  simp [collapseWS, h₁, h₂]

theorem head?_collapseWS (l : List Char) :
    (collapseWS l).head? = l.head?.map (fun c => if isSpaceChar c then ' ' else c) := by
  induction l with
  | nil => rfl
  | cons c cs ih =>
    cases cs with
    | nil =>
      rcases h : isSpaceChar c with _ | _
      · rw [collapseWS_singleton_nonspace c h]; simp [h]
      · rw [collapseWS_singleton_space c h]; simp [h]
    | cons c₂ cs₂ =>
      rcases h : isSpaceChar c with _ | _
      · rw [collapseWS_cons_nonspace c _ h]; simp [h]
      · rcases h₂ : isSpaceChar c₂ with _ | _
        · rw [collapseWS_cons_cons_sp_non c c₂ _ h h₂]; simp [h]
        · rw [collapseWS_cons_cons_sp_sp c c₂ _ h h₂, ih]; simp [h, h₂]

theorem space_mem_collapseWS (l : List Char) (c : Char)
    (hm : c ∈ collapseWS l) (hs : isSpaceChar c = true) : c = ' ' := by
  induction l with
  | nil => simp [collapseWS] at hm
  | cons c₁ cs ih =>
    cases cs with
    | nil =>
      rcases h : isSpaceChar c₁ with _ | _
      · rw [collapseWS_singleton_nonspace c₁ h] at hm
        rcases List.mem_singleton.mp hm with rfl
        rw [hs] at h; cases h
      · rw [collapseWS_singleton_space c₁ h] at hm
        exact List.mem_singleton.mp hm
    | cons c₂ cs₂ =>
      rcases h : isSpaceChar c₁ with _ | _
      · rw [collapseWS_cons_nonspace c₁ _ h] at hm
        rcases List.mem_cons.mp hm with h' | h'
        · subst h'; rw [hs] at h; cases h
        · exact ih h'
      · rcases h₂ : isSpaceChar c₂ with _ | _
        · rw [collapseWS_cons_cons_sp_non c₁ c₂ _ h h₂] at hm
          rcases List.mem_cons.mp hm with h' | h'
          · exact h'
          · exact ih h'
        · rw [collapseWS_cons_cons_sp_sp c₁ c₂ _ h h₂] at hm
          exact ih hm

theorem mem_collapseWS (l : List Char) (c : Char) (hm : c ∈ collapseWS l) :
    c ∈ l ∨ c = ' ' := by
  induction l with
  | nil => simp [collapseWS] at hm
  | cons c₁ cs ih =>
    cases cs with
    | nil =>
      rcases h : isSpaceChar c₁ with _ | _
      · rw [collapseWS_singleton_nonspace c₁ h] at hm
        left; exact hm
      · rw [collapseWS_singleton_space c₁ h] at hm
        right; exact List.mem_singleton.mp hm
    | cons c₂ cs₂ =>
      rcases h : isSpaceChar c₁ with _ | _
      · rw [collapseWS_cons_nonspace c₁ _ h] at hm
        rcases List.mem_cons.mp hm with h' | h'
        · left; simp [h']
        · rcases ih h' with h'' | h''
          · left; exact List.mem_cons_of_mem _ h''
          · right; exact h''
      · rcases h₂ : isSpaceChar c₂ with _ | _
        · rw [collapseWS_cons_cons_sp_non c₁ c₂ _ h h₂] at hm
          rcases List.mem_cons.mp hm with h' | h'
          · right; exact h'
          · rcases ih h' with h'' | h''
            · left; exact List.mem_cons_of_mem _ h''
            · right; exact h''
        · rw [collapseWS_cons_cons_sp_sp c₁ c₂ _ h h₂] at hm
          rcases ih hm with h'' | h''
          · left; exact List.mem_cons_of_mem _ h''
          · right; exact h''

theorem chain'_collapseWS (l : List Char) : List.Chain' NoTwoSp (collapseWS l) := by
  induction l with
  | nil => simp [collapseWS]
  | cons c₁ cs ih =>
    cases cs with
    | nil =>
      rcases h : isSpaceChar c₁ with _ | _
      · rw [collapseWS_singleton_nonspace c₁ h]; simp
      · rw [collapseWS_singleton_space c₁ h]; simp
    | cons c₂ cs₂ =>
      rcases h : isSpaceChar c₁ with _ | _
      · rw [collapseWS_cons_nonspace c₁ _ h]
        rw [List.chain'_cons']
        refine ⟨?_, ih⟩
        intro y _ hcon
        rw [h] at hcon
        cases hcon.1
      · rcases h₂ : isSpaceChar c₂ with _ | _
        · rw [collapseWS_cons_cons_sp_non c₁ c₂ _ h h₂]
          rw [List.chain'_cons']
          refine ⟨?_, ih⟩
          intro y hy hcon
          rw [head?_collapseWS] at hy
          simp only [List.head?_cons, Option.map_some', Option.mem_def,
            Option.some.injEq] at hy
          rw [if_neg (by simp [h₂])] at hy
          subst hy
          rw [h₂] at hcon
          cases hcon.2
        · rw [collapseWS_cons_cons_sp_sp c₁ c₂ _ h h₂]
          exact ih

theorem collapseWS_eq_self (l : List Char)
    (hsp : ∀ c ∈ l, isSpaceChar c = true → c = ' ')
    (hch : List.Chain' NoTwoSp l) : collapseWS l = l := by
  induction l with
  | nil => rfl
  | cons c₁ cs ih =>
    cases cs with
    | nil =>
      rcases h : isSpaceChar c₁ with _ | _
      · exact collapseWS_singleton_nonspace c₁ h
      · rw [collapseWS_singleton_space c₁ h, hsp c₁ (by simp) h]
    | cons c₂ cs₂ =>
      have hR : NoTwoSp c₁ c₂ := (List.chain'_cons.mp hch).1
      have hch₂ : List.Chain' NoTwoSp (c₂ :: cs₂) := (List.chain'_cons.mp hch).2
      have hsp₂ : ∀ c ∈ c₂ :: cs₂, isSpaceChar c = true → c = ' ' := by
        intro c hc
        exact hsp c (List.mem_cons_of_mem _ hc)
      rcases h : isSpaceChar c₁ with _ | _
      · rw [collapseWS_cons_nonspace c₁ _ h, ih hsp₂ hch₂]
      · have h₂ : isSpaceChar c₂ = false := by
          rcases h₂ : isSpaceChar c₂ with _ | _
          · rfl
          · exact absurd ⟨h, h₂⟩ hR
        rw [collapseWS_cons_cons_sp_non c₁ c₂ _ h h₂, ih hsp₂ hch₂,
          hsp c₁ (by simp) h]

/-! ### Properties of `stripWS` -/

theorem dropWhile_eq_self_of_head (p : Char → Bool) (l : List Char)
    (h : ∀ c, l.head? = some c → p c = false) : l.dropWhile p = l := by
  cases l with
  | nil => rfl
  | cons c cs =>
    rw [List.dropWhile_cons, if_neg]
    simp [h c rfl]

theorem mem_stripWS (l : List Char) (c : Char) (hm : c ∈ stripWS l) : c ∈ l := by
  unfold stripWS rstripWS lstripWS at hm
  have h1 : ((l.dropWhile isSpaceChar).reverse.dropWhile isSpaceChar)
      ⊆ (l.dropWhile isSpaceChar).reverse :=
    (List.dropWhile_sublist isSpaceChar).subset
  have h2 : l.dropWhile isSpaceChar ⊆ l :=
    (List.dropWhile_sublist isSpaceChar).subset
  rw [List.mem_reverse] at hm
  have := h1 hm
  rw [List.mem_reverse] at this
  exact h2 this

theorem chain'_stripWS (l : List Char) (h : List.Chain' NoTwoSp l) :
    List.Chain' NoTwoSp (stripWS l) := by
  unfold stripWS rstripWS lstripWS
  have h1 : List.Chain' NoTwoSp (l.dropWhile isSpaceChar) :=
    h.suffix (List.dropWhile_suffix _)
  have h2 : List.Chain' NoTwoSp (l.dropWhile isSpaceChar).reverse := by
    rw [List.chain'_reverse]
    apply List.Chain'.imp _ h1
    intro a b hab hcon
    exact hab ⟨hcon.2, hcon.1⟩
  have h3 : List.Chain' NoTwoSp ((l.dropWhile isSpaceChar).reverse.dropWhile isSpaceChar) :=
    h2.suffix (List.dropWhile_suffix _)
  rw [List.chain'_reverse]
  apply List.Chain'.imp _ h3
  intro a b hab hcon
  exact hab ⟨hcon.2, hcon.1⟩

theorem head?_stripWS (l : List Char) (c : Char)
    (h : (stripWS l).head? = some c) : isSpaceChar c = false := by
  unfold stripWS rstripWS lstripWS at h
  set m := l.dropWhile isSpaceChar with hm
  have hhead : ∀ d, m.head? = some d → isSpaceChar d = false := by
    intro d hd
    have := List.head?_dropWhile_not isSpaceChar l
    rw [← hm, hd] at this
    exact this
  have hpre : (m.reverse.dropWhile isSpaceChar).reverse <+: m := by
    rw [← List.reverse_suffix]
    rw [List.reverse_reverse]
    exact List.dropWhile_suffix _
  obtain ⟨t, ht⟩ := hpre
  rcases hr : (m.reverse.dropWhile isSpaceChar).reverse with _ | ⟨d, ds⟩
  · rw [hr] at h; simp at h
  · rw [hr] at ht h
    simp only [List.head?_cons] at h
    cases h
    have : m.head? = some c := by
      rw [← ht]
      simp
    exact hhead c this

theorem getLast?_stripWS (l : List Char) (c : Char)
    (h : (stripWS l).getLast? = some c) : isSpaceChar c = false := by
  unfold stripWS rstripWS at h
  rw [List.getLast?_reverse] at h
  have := List.head?_dropWhile_not isSpaceChar (lstripWS l).reverse
  rw [h] at this
  exact this

theorem stripWS_eq_self (l : List Char)
    (hh : ∀ c, l.head? = some c → isSpaceChar c = false)
    (hl : ∀ c, l.getLast? = some c → isSpaceChar c = false) : stripWS l = l := by
  unfold stripWS rstripWS lstripWS
  rw [dropWhile_eq_self_of_head _ _ hh]
  rw [dropWhile_eq_self_of_head _ _ (by
    intro c hc
    rw [List.head?_reverse] at hc
    exact hl c hc)]
  exact l.reverse_reverse

/-! ### The normalized form -/

/-- Shape of the output of the shared normalization rule: only lower-case
word characters and single internal blanks, no blank at either end. -/
def Normalized (l : List Char) : Prop :=
  (∀ c ∈ l, (isWordChar c = true ∧ c.toLower = c) ∨ c = ' ')
  ∧ List.Chain' NoTwoSp l
  ∧ (∀ c, l.head? = some c → isSpaceChar c = false)
  ∧ (∀ c, l.getLast? = some c → isSpaceChar c = false)

theorem normalized_normCore (l : List Char) : Normalized (normCore l) := by
  refine ⟨?_, ?_, ?_, ?_⟩
  · intro c hc
    unfold normCore at hc
    have hc₁ := mem_stripWS _ _ hc
    by_cases hs : isSpaceChar c = true
    · right; exact space_mem_collapseWS _ _ hc₁ hs
    · left
      rcases mem_collapseWS _ _ hc₁ with hmem | hmem
      · have hkept := List.of_mem_filter hmem
        have hword : isWordChar c = true := by
          rcases (isKeptChar_iff c).mp hkept with h | h
          · exact h
          · rw [h] at hs; exact absurd rfl hs
        refine ⟨hword, ?_⟩
        have hmap := List.mem_filter.mp hmem |>.1
        obtain ⟨x, _, hx⟩ := List.mem_map.mp hmap
        rw [← hx]
        exact toLower_toLower x
      · rw [hmem] at hs
        exact absurd isSpaceChar_blank hs
  · exact chain'_stripWS _ (chain'_collapseWS _)
  · exact head?_stripWS _
  · exact getLast?_stripWS _

theorem normCore_eq_self (l : List Char) (h : Normalized l) : normCore l = l := by
  obtain ⟨hmem, hch, hh, hl⟩ := h
  unfold normCore
  have hmap : l.map Char.toLower = l := by
    have hcg : ∀ c ∈ l, Char.toLower c = id c := by
      intro c hc
      rcases hmem c hc with ⟨_, h2⟩ | h2
      · exact h2
      · rw [h2]; decide
    rw [List.map_congr_left hcg, List.map_id]
  rw [hmap]
  have hfil : l.filter isKeptChar = l := by
    rw [List.filter_eq_self]
    intro c hc
    rcases hmem c hc with ⟨h1, _⟩ | h1
    · exact (isKeptChar_iff c).mpr (Or.inl h1)
    · rw [h1]; decide
  rw [hfil]
  have hsp : ∀ c ∈ l, isSpaceChar c = true → c = ' ' := by
    intro c hc hs
    rcases hmem c hc with ⟨h1, _⟩ | h1
    · rw [not_space_of_word c h1] at hs; exact absurd hs (by simp)
    · exact h1
  rw [collapseWS_eq_self l hsp hch]
  exact stripWS_eq_self l hh hl

theorem normCore_idem (l : List Char) : normCore (normCore l) = normCore l :=
  normCore_eq_self _ (normalized_normCore l)

/-! ### Claims C3 and C4 -/

/-- C3 counterexample: the claim says normalization "strips every character
that is not a letter, digit, or whitespace", and that the output "contains no
character outside letters, digits, and single internal spaces".  The code
keeps Python `\w`, which includes the underscore: on input `"_"` the output
is `"_"`, whose character is neither a letter, nor a digit, nor a space. -/
theorem c3_underscore_counterexample :
    _normalize_filename ['_'] = ['_'] ∧
    ('_' ∈ _normalize_filename ['_'] ∧
      ¬(('_'.isAlpha || '_'.isDigit) = true ∨ '_' = ' ')) := by
  constructor
  · decide
  · constructor
    · decide
    · decide

/-- C3 (amended): filename normalization (and the shared rule used by track
normalization) lower-cases its input, strips every character that is not a
word character (letter, digit, or underscore) or whitespace, collapses
repeated whitespace to a single blank, and trims; the output contains no
character outside lower-cased word characters and single internal blanks. -/
theorem c3_normalization_shape (l t a : List Char) :
    (∀ c ∈ _normalize_filename l, (isWordChar c = true ∧ c.toLower = c) ∨ c = ' ')
    ∧ List.Chain' NoTwoSp (_normalize_filename l)
    ∧ (∀ c, (_normalize_filename l).head? = some c → isSpaceChar c = false)
    ∧ (∀ c, (_normalize_filename l).getLast? = some c → isSpaceChar c = false)
    ∧ (∀ c ∈ _normalize_track_name t a, (isWordChar c = true ∧ c.toLower = c) ∨ c = ' ') := by
  refine ⟨?_, ?_, ?_, ?_, ?_⟩
  · exact (normalized_normCore l).1
  · exact (normalized_normCore l).2.1
  · exact (normalized_normCore l).2.2.1
  · exact (normalized_normCore l).2.2.2
  · exact (normalized_normCore _).1

/-- C3 witness: the amended theorem applied to the concrete input
`"The  song_1! "`, whose normalization is `"the song_1"`. -/
theorem c3_normalization_shape_witness :
    _normalize_filename (String.toList "The  song_1! ") = String.toList "the song_1" ∧
    (('t' ∈ _normalize_filename (String.toList "The  song_1! ")) ∧
      ((isWordChar 't' = true ∧ 't'.toLower = 't') ∨ 't' = ' ')) := by
  refine ⟨by decide, by decide, ?_⟩
  exact (c3_normalization_shape (String.toList "The  song_1! ") [] []).1 't' (by decide)

/-- C4: filename normalization is idempotent — normalizing an
already-normalized string is a no-op. -/
theorem c4_normalize_idempotent (x : List Char) :
    _normalize_filename (_normalize_filename x) = _normalize_filename x :=
  normCore_idem x

/-!
### Completeness checker: `find_missing_formats` (file_manager.py lines 189-235)

The function walks the three format directories of one playlist, accumulates
`all_songs : dict normalized_name -> {original_name, formats}` (Python dicts
preserve insertion order; the first file seen for a key fixes
`original_name`, later files only add to the `formats` dict, whose keys we
model as a `Finset Fmt`), then classifies every entry.
-/

inductive Fmt where
  | mp3
  | flac
  | video
deriving DecidableEq

instance : Fintype Fmt :=
  ⟨⟨{Fmt.mp3, Fmt.flac, Fmt.video}, by decide⟩, by intro x; cases x <;> decide⟩

/-- One entry of the Python `all_songs` dict. -/
structure SongRec where
  key : List Char
  original_name : List Char
  formats : Finset Fmt
deriving DecidableEq

/-- Updating one entry of `all_songs`: record that `fmt` was seen. -/
def updRec (k : List Char) (fmt : Fmt) (r : SongRec) : SongRec :=
  if r.key = k then { r with formats := insert fmt r.formats } else r

/-- Processing one file: `all_songs.setdefault` plus `formats[format] = path`.
When the key is present only its formats change (Python updates in place,
preserving dict order); a fresh key is appended at the end. -/
def addFile (songs : List SongRec) (stem : List Char) (fmt : Fmt) : List SongRec :=
  let k := _normalize_filename stem
  if songs.any (fun r => r.key = k) then songs.map (updRec k fmt)
  else songs ++ [{ key := k, original_name := stem, formats := {fmt} }]

/-- The accumulation loop over all (file stem, format) pairs in directory
order mp3, flac, video. -/
def processAll (files : List (List Char × Fmt)) : List SongRec :=
  files.foldl (fun songs e => addFile songs e.1 e.2) []

/-- The completeness report. -/
structure FormatsReport where
  missing_mp3 : List (List Char)
  missing_flac : List (List Char)
  missing_video : List (List Char)
  complete_songs : List (List Char)

/-- The classification pass over `all_songs.items()` (one pass in insertion
order appending to each list; equivalently one filtered map per list). -/
def reportOf (songs : List SongRec) : FormatsReport where
  missing_mp3 := (songs.filter (fun r => Fmt.mp3 ∉ r.formats)).map (fun r => r.original_name)
  missing_flac := (songs.filter (fun r => Fmt.flac ∉ r.formats)).map (fun r => r.original_name)
  missing_video := (songs.filter (fun r => Fmt.video ∉ r.formats)).map (fun r => r.original_name)
  complete_songs := (songs.filter (fun r => r.formats.card = 3)).map (fun r => r.original_name)

/-- The iteration order of the scan: the `mp3` directory, then `flac`, then
`video`, each with its files (stems) in listing order. -/
def inputSeq (mp3s flacs videos : List (List Char)) : List (List Char × Fmt) :=
  mp3s.map (fun s => (s, Fmt.mp3)) ++ flacs.map (fun s => (s, Fmt.flac))
    ++ videos.map (fun s => (s, Fmt.video))

/-- `FileManager.find_missing_formats`, taking the file stems listed in each
of the three format directories. -/
def find_missing_formats (mp3s flacs videos : List (List Char)) : FormatsReport :=
  reportOf (processAll (inputSeq mp3s flacs videos))

/-! #### Characterization of `processAll` -/

/-- The formats seen for normalized key `k` across the whole scan sequence. -/
def fmtsOf (L : List (List Char × Fmt)) (k : List Char) : Finset Fmt :=
  ((L.filter (fun e => _normalize_filename e.1 = k)).map (fun e => e.2)).toFinset

/-- The stem of the first scanned file whose name normalizes to `k`. -/
def firstStem (L : List (List Char × Fmt)) (k : List Char) : Option (List Char) :=
  (L.find? (fun e => _normalize_filename e.1 = k)).map (fun e => e.1)

/-- The set of normalized keys of a scan sequence. -/
def KS (L : List (List Char × Fmt)) : Finset (List Char) :=
  (L.map (fun e => _normalize_filename e.1)).toFinset

/-- Full characterization of the `all_songs` accumulator. -/
def Chr (L : List (List Char × Fmt)) (songs : List SongRec) : Prop :=
  (songs.map (fun r => r.key)).Nodup
  ∧ (∀ r ∈ songs, r.key = _normalize_filename r.original_name)
  ∧ (∀ k, k ∈ songs.map (fun r => r.key) ↔ ∃ e ∈ L, _normalize_filename e.1 = k)
  ∧ (∀ r ∈ songs, r.formats = fmtsOf L r.key ∧ firstStem L r.key = some r.original_name)

theorem key_updRec (k : List Char) (fmt : Fmt) (r : SongRec) :
    (updRec k fmt r).key = r.key := by
  unfold updRec
  by_cases h : r.key = k <;> simp [h]

theorem orig_updRec (k : List Char) (fmt : Fmt) (r : SongRec) :
    (updRec k fmt r).original_name = r.original_name := by
  unfold updRec
  by_cases h : r.key = k <;> simp [h]

theorem keys_map_updRec (songs : List SongRec) (k : List Char) (fmt : Fmt) :
    (songs.map (updRec k fmt)).map (fun r => r.key) = songs.map (fun r => r.key) := by
  rw [List.map_map]
  apply List.map_congr_left
  intro r _
  exact key_updRec k fmt r

theorem fmtsOf_append (L₁ L₂ : List (List Char × Fmt)) (k : List Char) :
    fmtsOf (L₁ ++ L₂) k = fmtsOf L₁ k ∪ fmtsOf L₂ k := by
  unfold fmtsOf
  rw [List.filter_append, List.map_append, List.toFinset_append]

theorem fmtsOf_single_eq (s : List Char) (fmt : Fmt) (k : List Char)
    (h : _normalize_filename s = k) : fmtsOf [(s, fmt)] k = {fmt} := by
  unfold fmtsOf
  simp [h]

theorem fmtsOf_single_ne (s : List Char) (fmt : Fmt) (k : List Char)
    (h : ¬(_normalize_filename s = k)) : fmtsOf [(s, fmt)] k = ∅ := by
  unfold fmtsOf
  simp [h]

theorem KS_append (L₁ L₂ : List (List Char × Fmt)) :
    KS (L₁ ++ L₂) = KS L₁ ∪ KS L₂ := by
  unfold KS
  rw [List.map_append, List.toFinset_append]

theorem mem_KS (L : List (List Char × Fmt)) (k : List Char) :
    k ∈ KS L ↔ ∃ e ∈ L, _normalize_filename e.1 = k := by
  unfold KS
  rw [List.mem_toFinset, List.mem_map]

theorem firstStem_append_of_some {L M : List (List Char × Fmt)} {k x : List Char}
    (h : firstStem L k = some x) : firstStem (L ++ M) k = some x := by
  unfold firstStem at h ⊢
  rw [List.find?_append]
  rcases hf : L.find? (fun e => _normalize_filename e.1 = k) with _ | p
  · rw [hf, Option.map_none'] at h
    cases h
  · rw [hf, Option.or_some]
    rw [hf] at h
    exact h

theorem chr_addFile (P : List (List Char × Fmt)) (songs : List SongRec)
    (e : List Char × Fmt) (ih : Chr P songs) :
    Chr (P ++ [e]) (addFile songs e.1 e.2) := by
  obtain ⟨hnd, hko, hkeys, hform⟩ := ih
  by_cases hmem : songs.any (fun r => r.key = _normalize_filename e.1) = true
  · -- the key is already present: every record keeps its place, the record
    -- with this key gains format e.2
    have haf : addFile songs e.1 e.2
        = songs.map (updRec (_normalize_filename e.1) e.2) := by
      unfold addFile
      rw [if_pos hmem]
    have hkeq : (songs.map (updRec (_normalize_filename e.1) e.2)).map (fun r => r.key)
        = songs.map (fun r => r.key) := keys_map_updRec songs _ e.2
    have hk₀mem : _normalize_filename e.1 ∈ songs.map (fun r => r.key) := by
      rw [List.any_eq_true] at hmem
      obtain ⟨r, hr, hrk⟩ := hmem
      simp only [decide_eq_true_eq] at hrk
      exact List.mem_map.mpr ⟨r, hr, hrk⟩
    refine ⟨?_, ?_, ?_, ?_⟩
    · rw [haf, hkeq]; exact hnd
    · rw [haf]
      intro r' hr'
      obtain ⟨r, hr, rfl⟩ := List.mem_map.mp hr'
      rw [key_updRec, orig_updRec]
      exact hko r hr
    · intro k
      rw [haf, hkeq]
      constructor
      · intro h
        obtain ⟨e', he', h'⟩ := (hkeys k).mp h
        exact ⟨e', List.mem_append_left _ he', h'⟩
      · rintro ⟨e', he', h'⟩
        rcases List.mem_append.mp he' with h'' | h''
        · exact (hkeys k).mpr ⟨e', h'', h'⟩
        · rcases List.mem_singleton.mp h''
          rw [← h']
          exact hk₀mem
    · rw [haf]
      intro r' hr'
      obtain ⟨r, hr, rfl⟩ := List.mem_map.mp hr'
      rw [key_updRec, orig_updRec]
      refine ⟨?_, firstStem_append_of_some (hform r hr).2⟩
      by_cases hrk : r.key = _normalize_filename e.1
      · unfold updRec
        rw [if_pos hrk, hrk]
        show insert e.2 r.formats = fmtsOf (P ++ [e]) (_normalize_filename e.1)
        rw [(hform r hr).1, hrk]
        rw [fmtsOf_append, fmtsOf_single_eq e.1 e.2 _ rfl]
        ext x
        simp [Finset.mem_union, Finset.mem_insert, or_comm]
      · unfold updRec
        rw [if_neg hrk]
        rw [(hform r hr).1]
        rw [fmtsOf_append, fmtsOf_single_ne e.1 e.2 r.key (fun hcc => hrk hcc.symm)]
        rw [Finset.union_empty]
  · -- fresh key: appended at the end of the dict
    have hnew : ¬ _normalize_filename e.1 ∈ songs.map (fun r => r.key) := by
      intro hcon
      obtain ⟨r, hr, hrk⟩ := List.mem_map.mp hcon
      apply hmem
      rw [List.any_eq_true]
      exact ⟨r, hr, by simp [hrk]⟩
    have hnotL : ∀ e' ∈ P, ¬(_normalize_filename e'.1 = _normalize_filename e.1) := by
      intro e' he' hcon
      exact hnew ((hkeys _).mpr ⟨e', he', hcon⟩)
    have haf : addFile songs e.1 e.2
        = songs ++ [⟨_normalize_filename e.1, e.1, ({e.2} : Finset Fmt)⟩] := by
      unfold addFile
      rw [if_neg hmem]
    refine ⟨?_, ?_, ?_, ?_⟩
    · rw [haf, List.map_append]
      simp only [List.map_cons, List.map_nil]
      rw [List.nodup_append]
      exact ⟨hnd, List.nodup_singleton _, by
        intro x hx hy
        rcases List.mem_singleton.mp hy
        exact hnew hx⟩
    · rw [haf]
      intro r hr
      rcases List.mem_append.mp hr with h' | h'
      · exact hko r h'
      · rcases List.mem_singleton.mp h'
        rfl
    · intro k
      rw [haf, List.map_append]
      simp only [List.map_cons, List.map_nil]
      rw [List.mem_append, List.mem_singleton]
      constructor
      · intro h
        rcases h with h' | h'
        · obtain ⟨e', he', h''⟩ := (hkeys k).mp h'
          exact ⟨e', List.mem_append_left _ he', h''⟩
        · exact ⟨e, List.mem_append_right _ (by simp), h'.symm⟩
      · rintro ⟨e', he', h'⟩
        rcases List.mem_append.mp he' with h'' | h''
        · exact Or.inl ((hkeys k).mpr ⟨e', h'', h'⟩)
        · rcases List.mem_singleton.mp h''
          exact Or.inr h'.symm
    · rw [haf]
      intro r hr
      rcases List.mem_append.mp hr with h' | h'
      · have hrk : ¬(r.key = _normalize_filename e.1) := by
          intro hcon
          exact hnew (hcon ▸ List.mem_map.mpr ⟨r, h', rfl⟩)
        refine ⟨?_, firstStem_append_of_some (hform r h').2⟩
        rw [(hform r h').1, fmtsOf_append,
          fmtsOf_single_ne e.1 e.2 r.key (fun hcc => hrk hcc.symm)]
        rw [Finset.union_empty]
      · rcases List.mem_singleton.mp h'
        refine ⟨?_, ?_⟩
        · show ({e.2} : Finset Fmt) = fmtsOf (P ++ [e]) (_normalize_filename e.1)
          rw [fmtsOf_append, fmtsOf_single_eq e.1 e.2 _ rfl]
          have hz : fmtsOf P (_normalize_filename e.1) = ∅ := by
            unfold fmtsOf
            rw [List.filter_eq_nil_iff.mpr (by
              intro e' he'
              simp only [decide_eq_true_eq]
              exact hnotL e' he')]
            rfl
          rw [hz, Finset.empty_union]
        · show firstStem (P ++ [e]) (_normalize_filename e.1) = some e.1
          unfold firstStem
          rw [List.find?_append]
          rw [List.find?_eq_none.mpr (by
            intro e' he'
            simp only [decide_eq_true_eq]
            exact hnotL e' he')]
          simp

theorem chr_fold (L : List (List Char × Fmt)) :
    ∀ (P : List (List Char × Fmt)) (songs : List SongRec), Chr P songs →
      Chr (P ++ L) (L.foldl (fun s e => addFile s e.1 e.2) songs) := by
  induction L with
  | nil =>
    intro P songs h
    rw [List.append_nil]
    exact h
  | cons e L' ih =>
    intro P songs h
    have h' := ih (P ++ [e]) (addFile songs e.1 e.2) (chr_addFile P songs e h)
    rw [List.append_assoc] at h'
    exact h'

theorem chr_nil : Chr [] [] := by
  refine ⟨List.nodup_nil, ?_, ?_, ?_⟩
  · intro r hr; cases hr
  · intro k
    constructor
    · intro h; cases h
    · rintro ⟨e, he, h⟩; cases he
  · intro r hr; cases hr

theorem chr_processAll (L : List (List Char × Fmt)) : Chr L (processAll L) := by
  have h := chr_fold L [] [] chr_nil
  rw [List.nil_append] at h
  exact h

/-! #### Report membership -/

theorem key_inj_of_chr {L : List (List Char × Fmt)} {songs : List SongRec}
    (h : Chr L songs) {r r' : SongRec} (hr : r ∈ songs) (hr' : r' ∈ songs)
    (hk : r.key = r'.key) : r = r' :=
  List.inj_on_of_nodup_map h.1 hr hr' hk

theorem mem_report_list {L : List (List Char × Fmt)} {songs : List SongRec}
    (h : Chr L songs) (p : SongRec → Bool) (r : SongRec) (hr : r ∈ songs) :
    (r.original_name ∈ (songs.filter p).map (fun t => t.original_name)) ↔ p r = true := by
  constructor
  · intro hm
    obtain ⟨r', hr', horig⟩ := List.mem_map.mp hm
    have hr'' := List.mem_filter.mp hr'
    have hkey : r'.key = r.key := by
      rw [h.2.1 r' hr''.1, h.2.1 r hr, horig]
    have heq : r' = r := key_inj_of_chr h hr''.1 hr hkey
    rw [← heq]
    exact hr''.2
  · intro hp
    exact List.mem_map.mpr ⟨r, List.mem_filter.mpr ⟨hr, hp⟩, rfl⟩

theorem card_three_iff (s : Finset Fmt) :
    s.card = 3 ↔ (Fmt.mp3 ∈ s ∧ Fmt.flac ∈ s ∧ Fmt.video ∈ s) := by
  revert s
  decide

/-- C5: an identity is listed under `complete_songs` iff all three format
slots were seen for it; it is listed under a missing-format list iff that
format is absent; the lists are keyed by the first-seen display name of the
identity (whose normalized form is the identity's key), not by the key. -/
theorem c5_report_classification (m f v : List (List Char)) (r : SongRec)
    (hr : r ∈ processAll (inputSeq m f v)) :
    (r.original_name ∈ (find_missing_formats m f v).complete_songs ↔
      (Fmt.mp3 ∈ r.formats ∧ Fmt.flac ∈ r.formats ∧ Fmt.video ∈ r.formats))
    ∧ (r.original_name ∈ (find_missing_formats m f v).missing_mp3 ↔ Fmt.mp3 ∉ r.formats)
    ∧ (r.original_name ∈ (find_missing_formats m f v).missing_flac ↔ Fmt.flac ∉ r.formats)
    ∧ (r.original_name ∈ (find_missing_formats m f v).missing_video ↔ Fmt.video ∉ r.formats)
    ∧ firstStem (inputSeq m f v) r.key = some r.original_name
    ∧ r.key = _normalize_filename r.original_name := by
  have hchr := chr_processAll (inputSeq m f v)
  refine ⟨?_, ?_, ?_, ?_, (hchr.2.2.2 r hr).2, hchr.2.1 r hr⟩
  · rw [show (find_missing_formats m f v).complete_songs
        = ((processAll (inputSeq m f v)).filter (fun t => t.formats.card = 3)).map
            (fun t => t.original_name) from rfl]
    rw [mem_report_list hchr _ r hr]
    rw [decide_eq_true_eq]
    exact card_three_iff r.formats
  · rw [show (find_missing_formats m f v).missing_mp3
        = ((processAll (inputSeq m f v)).filter (fun t => Fmt.mp3 ∉ t.formats)).map
            (fun t => t.original_name) from rfl]
    rw [mem_report_list hchr _ r hr]
    rw [decide_eq_true_eq]
  · rw [show (find_missing_formats m f v).missing_flac
        = ((processAll (inputSeq m f v)).filter (fun t => Fmt.flac ∉ t.formats)).map
            (fun t => t.original_name) from rfl]
    rw [mem_report_list hchr _ r hr]
    rw [decide_eq_true_eq]
  · rw [show (find_missing_formats m f v).missing_video
        = ((processAll (inputSeq m f v)).filter (fun t => Fmt.video ∉ t.formats)).map
            (fun t => t.original_name) from rfl]
    rw [mem_report_list hchr _ r hr]
    rw [decide_eq_true_eq]

/-- C5 witness: Scenario A — category with `Song A.mp3` in `mp3/` and
`song a.mp4` in `video/`; both normalize to the identity `song a`, which is
listed under the missing-lossless list and not under complete. -/
theorem c5_report_classification_witness :
    ((⟨String.toList "song a", String.toList "Song A",
        (insert Fmt.video {Fmt.mp3} : Finset Fmt)⟩ : SongRec)
      ∈ processAll (inputSeq [String.toList "Song A"] [] [String.toList "song a"]))
    ∧ ((⟨String.toList "song a", String.toList "Song A",
        (insert Fmt.video {Fmt.mp3} : Finset Fmt)⟩ : SongRec).original_name
        ∈ (find_missing_formats [String.toList "Song A"] [] [String.toList "song a"]).missing_flac
      ↔ Fmt.flac ∉ (⟨String.toList "song a", String.toList "Song A",
        (insert Fmt.video {Fmt.mp3} : Finset Fmt)⟩ : SongRec).formats)
    ∧ ((⟨String.toList "song a", String.toList "Song A",
        (insert Fmt.video {Fmt.mp3} : Finset Fmt)⟩ : SongRec).original_name
        ∈ (find_missing_formats [String.toList "Song A"] [] [String.toList "song a"]).complete_songs
      ↔ (Fmt.mp3 ∈ (⟨String.toList "song a", String.toList "Song A",
          (insert Fmt.video {Fmt.mp3} : Finset Fmt)⟩ : SongRec).formats
        ∧ Fmt.flac ∈ (⟨String.toList "song a", String.toList "Song A",
          (insert Fmt.video {Fmt.mp3} : Finset Fmt)⟩ : SongRec).formats
        ∧ Fmt.video ∈ (⟨String.toList "song a", String.toList "Song A",
          (insert Fmt.video {Fmt.mp3} : Finset Fmt)⟩ : SongRec).formats)) := by
  have hmem : (⟨String.toList "song a", String.toList "Song A",
      (insert Fmt.video {Fmt.mp3} : Finset Fmt)⟩ : SongRec)
      ∈ processAll (inputSeq [String.toList "Song A"] [] [String.toList "song a"]) :=
    List.mem_singleton.mpr rfl
  refine ⟨hmem, ?_, ?_⟩
  · exact (c5_report_classification [String.toList "Song A"] [] [String.toList "song a"]
      _ hmem).2.2.1
  · exact (c5_report_classification [String.toList "Song A"] [] [String.toList "song a"]
      _ hmem).1

/-! #### Completeness monotonicity (C6) -/

/-- The missing-format list of the report corresponding to a format. -/
def missingList (fmt : Fmt) (rep : FormatsReport) : List (List Char) :=
  match fmt with
  | Fmt.mp3 => rep.missing_mp3
  | Fmt.flac => rep.missing_flac
  | Fmt.video => rep.missing_video

theorem missingList_reportOf (fmt : Fmt) (songs : List SongRec) :
    missingList fmt (reportOf songs)
      = (songs.filter (fun r => fmt ∉ r.formats)).map (fun r => r.original_name) := by
  cases fmt <;> rfl

/-- The length of a missing-format report list counts the keys whose format
set misses that format. -/
theorem length_missingList (L : List (List Char × Fmt)) (fmt : Fmt) :
    (missingList fmt (reportOf (processAll L))).length
      = ((KS L).filter (fun k => fmt ∉ fmtsOf L k)).card := by
  have hchr := chr_processAll L
  rw [missingList_reportOf, List.length_map, ← List.countP_eq_length_filter]
  have hcongr : (processAll L).countP (fun r => fmt ∉ r.formats)
      = (processAll L).countP (fun r => decide (fmt ∉ fmtsOf L r.key)) := by
    apply List.countP_congr
    intro r hr
    simp only [decide_eq_true_eq]
    rw [(hchr.2.2.2 r hr).1]
  rw [hcongr, List.countP_eq_length_filter]
  have hsub : List.Sublist
      (((processAll L).filter (fun r => decide (fmt ∉ fmtsOf L r.key))).map
        (fun r => r.key))
      ((processAll L).map (fun r => r.key)) :=
    (List.filter_sublist (processAll L)).map _
  have hnd : ((((processAll L).filter
      (fun r => decide (fmt ∉ fmtsOf L r.key)))).map (fun r => r.key)).Nodup :=
    List.Nodup.sublist hsub hchr.1
  have hlen : ((processAll L).filter (fun r => decide (fmt ∉ fmtsOf L r.key))).length
      = (((processAll L).filter (fun r => decide (fmt ∉ fmtsOf L r.key))).map
          (fun r => r.key)).length :=
    (List.length_map _ _).symm
  rw [hlen, ← List.toFinset_card_of_nodup hnd]
  congr 1
  ext x
  rw [List.mem_toFinset, List.mem_map, Finset.mem_filter]
  constructor
  · rintro ⟨r, hr, rfl⟩
    have hr' := List.mem_filter.mp hr
    have hp := hr'.2
    simp only [decide_eq_true_eq] at hp
    constructor
    · rw [mem_KS]
      exact (hchr.2.2.1 r.key).mp (List.mem_map.mpr ⟨r, hr'.1, rfl⟩)
    · exact hp
  · rintro ⟨hx, hp⟩
    rw [mem_KS] at hx
    have hxm := (hchr.2.2.1 x).mpr hx
    obtain ⟨r, hr, hrk⟩ := List.mem_map.mp hxm
    exact ⟨r, List.mem_filter.mpr ⟨hr, by rw [hrk]; simpa using hp⟩, hrk⟩

theorem KS_insert_mid (A B : List (List Char × Fmt)) (s : List Char) (fmt : Fmt)
    (hk : _normalize_filename s ∈ KS (A ++ B)) :
    KS (A ++ [(s, fmt)] ++ B) = KS (A ++ B) := by
  rw [KS_append, KS_append, KS_append]
  have hs : KS [(s, fmt)] = {_normalize_filename s} := by
    unfold KS
    rfl
  rw [hs]
  rw [KS_append] at hk
  ext x
  simp only [Finset.mem_union, Finset.mem_singleton]
  constructor
  · rintro ((h | rfl) | h)
    · exact Or.inl h
    · exact Finset.mem_union.mp hk
    · exact Or.inr h
  · rintro (h | h)
    · exact Or.inl (Or.inl h)
    · exact Or.inr h

theorem fmtsOf_insert_mid (A B : List (List Char × Fmt)) (s : List Char) (fmt : Fmt)
    (k : List Char) :
    fmtsOf (A ++ [(s, fmt)] ++ B) k
      = if _normalize_filename s = k then insert fmt (fmtsOf (A ++ B) k)
        else fmtsOf (A ++ B) k := by
  rw [fmtsOf_append, fmtsOf_append, fmtsOf_append]
  by_cases h : _normalize_filename s = k
  · rw [if_pos h, fmtsOf_single_eq s fmt k h]
    ext x
    simp only [Finset.mem_union, Finset.mem_insert, Finset.mem_singleton]
    constructor
    · rintro ((h' | rfl) | h')
      · exact Or.inr (Or.inl h')
      · exact Or.inl rfl
      · exact Or.inr (Or.inr h')
    · rintro (rfl | (h' | h'))
      · exact Or.inl (Or.inr rfl)
      · exact Or.inl (Or.inl h')
      · exact Or.inr h'
  · rw [if_neg h, fmtsOf_single_ne s fmt k h, Finset.union_empty]

theorem c6_core_length (A B : List (List Char × Fmt)) (s : List Char) (fmt : Fmt)
    (hk : _normalize_filename s ∈ KS (A ++ B))
    (hmiss : fmt ∉ fmtsOf (A ++ B) (_normalize_filename s)) :
    (missingList fmt (reportOf (processAll (A ++ [(s, fmt)] ++ B)))).length + 1
      = (missingList fmt (reportOf (processAll (A ++ B)))).length := by
  rw [length_missingList, length_missingList, KS_insert_mid A B s fmt hk]
  have hfil : (KS (A ++ B)).filter (fun k => fmt ∉ fmtsOf (A ++ [(s, fmt)] ++ B) k)
      = ((KS (A ++ B)).filter (fun k => fmt ∉ fmtsOf (A ++ B) k)).erase
          (_normalize_filename s) := by
    ext x
    rw [Finset.mem_erase, Finset.mem_filter, Finset.mem_filter,
      fmtsOf_insert_mid A B s fmt x]
    by_cases hx : _normalize_filename s = x
    · rw [if_pos hx]
      simp only [Finset.mem_insert]
      constructor
      · rintro ⟨_, hcon⟩
        exact absurd (Or.inl (by trivial)) hcon
      · rintro ⟨hne, _⟩
        exact absurd hx.symm hne
    · rw [if_neg hx]
      constructor
      · rintro ⟨hxm, hcon⟩
        exact ⟨fun hcc => hx hcc.symm, hxm, hcon⟩
      · rintro ⟨_, hxm, hcon⟩
        exact ⟨hxm, hcon⟩
  rw [hfil]
  have hmem : _normalize_filename s
      ∈ (KS (A ++ B)).filter (fun k => fmt ∉ fmtsOf (A ++ B) k) :=
    Finset.mem_filter.mpr ⟨hk, hmiss⟩
  rw [Finset.card_erase_of_mem hmem]
  have hpos : 0 < ((KS (A ++ B)).filter (fun k => fmt ∉ fmtsOf (A ++ B) k)).card :=
    Finset.card_pos.mpr ⟨_, hmem⟩
  omega

theorem c6_core_complete (A B : List (List Char × Fmt)) (s : List Char) (fmt : Fmt)
    (hmiss : fmt ∉ fmtsOf (A ++ B) (_normalize_filename s))
    (hcard : (fmtsOf (A ++ B) (_normalize_filename s)).card = 2) :
    ∀ r' ∈ processAll (A ++ [(s, fmt)] ++ B), r'.key = _normalize_filename s →
      r'.original_name ∈ (reportOf (processAll (A ++ [(s, fmt)] ++ B))).complete_songs := by
  intro r' hr' hkey
  have hchr := chr_processAll (A ++ [(s, fmt)] ++ B)
  have hform := (hchr.2.2.2 r' hr').1
  have hc3 : r'.formats.card = 3 := by
    rw [hform, hkey, fmtsOf_insert_mid A B s fmt _, if_pos rfl,
      Finset.card_insert_of_not_mem hmiss, hcard]
  rw [show (reportOf (processAll (A ++ [(s, fmt)] ++ B))).complete_songs
      = ((processAll (A ++ [(s, fmt)] ++ B)).filter (fun t => t.formats.card = 3)).map
          (fun t => t.original_name) from rfl]
  exact (mem_report_list hchr _ r' hr').mpr (by simp [hc3])

/-- The three input lists after one file with stem `s` is added to the
directory of format `fmt`. -/
def addToSlot (m f v : List (List Char)) (s : List Char) :
    Fmt → List (List Char) × List (List Char) × List (List Char)
  | Fmt.mp3 => (m ++ [s], f, v)
  | Fmt.flac => (m, f ++ [s], v)
  | Fmt.video => (m, f, v ++ [s])

/-- The scan sequence after the addition. -/
def seqAfterAdd (m f v : List (List Char)) (s : List Char) (fmt : Fmt) :
    List (List Char × Fmt) :=
  inputSeq (addToSlot m f v s fmt).1 (addToSlot m f v s fmt).2.1
    (addToSlot m f v s fmt).2.2

/-- The report after the addition. -/
def reportAfterAdd (m f v : List (List Char)) (s : List Char) (fmt : Fmt) :
    FormatsReport :=
  find_missing_formats (addToSlot m f v s fmt).1 (addToSlot m f v s fmt).2.1
    (addToSlot m f v s fmt).2.2

theorem seqAfterAdd_decomp (m f v : List (List Char)) (s : List Char) (fmt : Fmt) :
    ∃ A B, seqAfterAdd m f v s fmt = A ++ [(s, fmt)] ++ B
      ∧ A ++ B = inputSeq m f v := by
  cases fmt with
  | mp3 =>
    refine ⟨m.map (fun t => (t, Fmt.mp3)),
      f.map (fun t => (t, Fmt.flac)) ++ v.map (fun t => (t, Fmt.video)), ?_, ?_⟩
    · unfold seqAfterAdd addToSlot inputSeq
      rw [List.map_append]
      simp [List.append_assoc]
    · unfold inputSeq
      rw [List.append_assoc]
  | flac =>
    refine ⟨m.map (fun t => (t, Fmt.mp3)) ++ f.map (fun t => (t, Fmt.flac)),
      v.map (fun t => (t, Fmt.video)), ?_, ?_⟩
    · unfold seqAfterAdd addToSlot inputSeq
      rw [List.map_append]
      simp [List.append_assoc]
    · unfold inputSeq
      rw [List.append_assoc]
  | video =>
    refine ⟨m.map (fun t => (t, Fmt.mp3)) ++ f.map (fun t => (t, Fmt.flac))
        ++ v.map (fun t => (t, Fmt.video)), [], ?_, ?_⟩
    · unfold seqAfterAdd addToSlot inputSeq
      rw [List.map_append]
      simp [List.append_assoc]
    · rw [List.append_nil]
      unfold inputSeq
      rw [List.append_assoc]

theorem reportAfterAdd_eq (m f v : List (List Char)) (s : List Char) (fmt : Fmt) :
    reportAfterAdd m f v s fmt = reportOf (processAll (seqAfterAdd m f v s fmt)) := by
  cases fmt <;> rfl

/-- C6: adding one file, in a format previously missing for an identity that
is already present, strictly shrinks that format's missing list (by exactly
one entry), and when the identity previously had exactly two of the three
formats the identity becomes listed under `complete_songs`. -/
theorem c6_monotonicity (m f v : List (List Char)) (s : List Char) (fmt : Fmt)
    (r : SongRec) (hr : r ∈ processAll (inputSeq m f v))
    (hrk : r.key = _normalize_filename s) (hmiss : fmt ∉ r.formats) :
    ((missingList fmt (reportAfterAdd m f v s fmt)).length + 1
      = (missingList fmt (find_missing_formats m f v)).length)
    ∧ (∃ r', r' ∈ processAll (seqAfterAdd m f v s fmt) ∧ r'.key = _normalize_filename s)
    ∧ (r.formats.card = 2 →
        ∀ r' ∈ processAll (seqAfterAdd m f v s fmt), r'.key = _normalize_filename s →
          r'.original_name ∈ (reportAfterAdd m f v s fmt).complete_songs) := by
  obtain ⟨A, B, hAB, hseq⟩ := seqAfterAdd_decomp m f v s fmt
  have hchr := chr_processAll (inputSeq m f v)
  have hks : _normalize_filename s ∈ KS (A ++ B) := by
    rw [hseq, mem_KS]
    exact (hchr.2.2.1 _).mp (hrk ▸ List.mem_map.mpr ⟨r, hr, rfl⟩)
  have hform : r.formats = fmtsOf (inputSeq m f v) (_normalize_filename s) := by
    rw [← hrk]
    exact (hchr.2.2.2 r hr).1
  have hmiss' : fmt ∉ fmtsOf (A ++ B) (_normalize_filename s) := by
    rw [hseq, ← hform]
    exact hmiss
  refine ⟨?_, ?_, ?_⟩
  · rw [reportAfterAdd_eq, hAB]
    rw [show find_missing_formats m f v = reportOf (processAll (inputSeq m f v)) from rfl,
      ← hseq]
    exact c6_core_length A B s fmt hks hmiss'
  · have hchr' := chr_processAll (seqAfterAdd m f v s fmt)
    have hkm : _normalize_filename s
        ∈ (processAll (seqAfterAdd m f v s fmt)).map (fun t => t.key) := by
      rw [hchr'.2.2.1]
      refine ⟨(s, fmt), ?_, rfl⟩
      rw [hAB]
      exact List.mem_append_left B
        (List.mem_append_right A (List.mem_singleton.mpr rfl))
    obtain ⟨r', hr', hrk'⟩ := List.mem_map.mp hkm
    exact ⟨r', hr', hrk'⟩
  · intro hcard r' hr' hrk'
    have hcard' : (fmtsOf (A ++ B) (_normalize_filename s)).card = 2 := by
      rw [hseq, ← hform]
      exact hcard
    rw [reportAfterAdd_eq, hAB]
    rw [hAB] at hr'
    exact c6_core_complete A B s fmt hmiss' hcard' r' hr' hrk'

/-- C6 witness: identity `x` present as mp3 and video (two formats); adding
`x.flac` shrinks `missing_flac` from one entry to zero and lists `x` under
`complete_songs`. -/
theorem c6_monotonicity_witness :
    (((missingList Fmt.flac (reportAfterAdd [String.toList "x"] [] [String.toList "x"]
        (String.toList "x") Fmt.flac)).length + 1
      = (missingList Fmt.flac (find_missing_formats [String.toList "x"] []
          [String.toList "x"])).length)
    ∧ (∃ r', r' ∈ processAll (seqAfterAdd [String.toList "x"] [] [String.toList "x"]
          (String.toList "x") Fmt.flac)
        ∧ r'.key = _normalize_filename (String.toList "x"))
    ∧ ((⟨String.toList "x", String.toList "x",
          (insert Fmt.video {Fmt.mp3} : Finset Fmt)⟩ : SongRec).formats.card = 2 →
        ∀ r' ∈ processAll (seqAfterAdd [String.toList "x"] [] [String.toList "x"]
            (String.toList "x") Fmt.flac),
          r'.key = _normalize_filename (String.toList "x") →
          r'.original_name ∈ (reportAfterAdd [String.toList "x"] [] [String.toList "x"]
            (String.toList "x") Fmt.flac).complete_songs)) :=
  c6_monotonicity [String.toList "x"] [] [String.toList "x"] (String.toList "x") Fmt.flac
    ⟨String.toList "x", String.toList "x", (insert Fmt.video {Fmt.mp3} : Finset Fmt)⟩
    (List.mem_singleton.mpr rfl) (by decide) (by decide)

/-!
### `difflib.SequenceMatcher` (CPython), as used at file_manager.py line 299

`SequenceMatcher(None, a, b).ratio()` with `isjunk = None` and the default
`autojunk = True`.  `__chain_b` builds `b2j`, mapping each element of `b` to
its ascending list of positions; no junk predicate is given, and when
`len(b) >= 200` it purges "popular" elements occurring more than
`len(b) // 100 + 1` times.  `bjunk` stays empty, so inside
`find_longest_match` the predicate `isbjunk` is always false: the two junk
extension loops never fire and the two plain extension loops always may.
The dict `j2len` memoizes the length of the longest common run ending at the
current position pair (`runLen` below).  `get_matching_blocks` recurses into
the two sub-rectangles around each found block; only the sum of block sizes
reaches `ratio`, so the queue/sort/merge bookkeeping is modelled by the
recursive sum `mtGo` (fuel-based; the rectangle perimeter shrinks at every
level, so `len(a) + len(b)` fuel always suffices).  `ratio` returns
`2.0 * matches / (len(a) + len(b))`, and 1.0 when both inputs are empty. -/

/-- A `b` element purged from `b2j` by autojunk. -/
def popularB (b : List Char) (c : Char) : Bool :=
  decide (200 ≤ b.length) && decide (b.length / 100 + 1 < b.count c)

/-- Both positions in range and elements equal (Python `a[i] == b[j]`). -/
def matchAt (a b : List Char) (i j : Nat) : Bool :=
  match a.get? i, b.get? j with
  | some x, some y => x = y
  | _, _ => false

/-- A position pair contributing to `j2len` in row `i`: column `j` lies in
`[blo, bhi)` (`continue` below `blo`, `break` at `bhi`), `a[i] == b[j]`, and
the element was not purged from `b2j`. -/
def okJ (a b : List Char) (blo bhi i j : Nat) : Bool :=
  decide (blo ≤ j) && decide (j < bhi) && matchAt a b i j &&
    (match a.get? i with
     | some c => !popularB b c
     | none => false)

/-- `j2len[j]` after processing row `alo + t`: the length of the eligible
common run ending at positions `(alo + t, j)`. -/
def runLen (a b : List Char) (alo blo bhi : Nat) : Nat → Nat → Nat
  | 0, j => if okJ a b blo bhi alo j then 1 else 0
  | t + 1, 0 => if okJ a b blo bhi (alo + t + 1) 0 then 1 else 0
  | t + 1, j + 1 =>
    if okJ a b blo bhi (alo + t + 1) (j + 1) then runLen a b alo blo bhi t j + 1
    else 0

/-- The columns scanned in row `i`, in ascending order. -/
def jsOf (a b : List Char) (blo bhi i : Nat) : List Nat :=
  (List.range b.length).filter (fun j => okJ a b blo bhi i j)

/-- One `if k > bestsize` update of the inner loop. -/
def bestStep (a b : List Char) (alo blo bhi t : Nat) (st : Nat × Nat × Nat)
    (j : Nat) : Nat × Nat × Nat :=
  if st.2.2 < runLen a b alo blo bhi t j then
    (alo + t + 1 - runLen a b alo blo bhi t j,
     j + 1 - runLen a b alo blo bhi t j,
     runLen a b alo blo bhi t j)
  else st

/-- The double loop of `find_longest_match` over rows and eligible columns,
starting from `besti, bestj, bestsize = alo, blo, 0`. -/
def innerBest (a b : List Char) (alo ahi blo bhi : Nat) : Nat × Nat × Nat :=
  (List.range (ahi - alo)).foldl
    (fun st t => (jsOf a b blo bhi (alo + t)).foldl (bestStep a b alo blo bhi t) st)
    (alo, blo, 0)

/-- First extension loop: extend the block backwards while the previous
elements match (`isbjunk` is constantly false). -/
def backSteps (a b : List Char) (alo blo : Nat) : Nat → Nat → Nat → Nat
  | 0, _, _ => 0
  | fuel + 1, i, j =>
    if decide (alo < i) && decide (blo < j) && matchAt a b (i - 1) (j - 1) then
      backSteps a b alo blo fuel (i - 1) (j - 1) + 1
    else 0

/-- Second extension loop: extend the block forwards while the next elements
match. -/
def fwdSteps (a b : List Char) (ahi bhi : Nat) : Nat → Nat → Nat → Nat
  | 0, _, _ => 0
  | fuel + 1, x, y =>
    if decide (x < ahi) && decide (y < bhi) && matchAt a b x y then
      fwdSteps a b ahi bhi fuel (x + 1) (y + 1) + 1
    else 0

/-- `find_longest_match(alo, ahi, blo, bhi)`. -/
def find_longest_match (a b : List Char) (alo ahi blo bhi : Nat) : Nat × Nat × Nat :=
  let ib := innerBest a b alo ahi blo bhi
  let s := backSteps a b alo blo ib.1 ib.1 ib.2.1
  let bi := ib.1 - s
  let bj := ib.2.1 - s
  let bs := ib.2.2 + s
  let f := fwdSteps a b ahi bhi (ahi - (bi + bs)) (bi + bs) (bj + bs)
  (bi, bj, bs + f)

/-- Total size of the matching blocks inside a sub-rectangle: the recursion
of `get_matching_blocks` (its queue order, final sort and merging of adjacent
blocks do not change the sum of sizes). -/
def mtGo (a b : List Char) : Nat → Nat → Nat → Nat → Nat → Nat
  | 0, _, _, _, _ => 0
  | fuel + 1, alo, ahi, blo, bhi =>
    match find_longest_match a b alo ahi blo bhi with
    | (i, j, k) =>
      if k = 0 then 0
      else k + mtGo a b fuel alo i blo j + mtGo a b fuel (i + k) ahi (j + k) bhi

/-- `sum(triple[-1] for triple in get_matching_blocks())`. -/
def matchesTotal (a b : List Char) : Nat :=
  mtGo a b (a.length + b.length) 0 a.length 0 b.length

/-- `SequenceMatcher(None, a, b).ratio()` as an exact rational. -/
def ratio (a b : List Char) : ℚ :=
  if a.length + b.length = 0 then 1
  else 2 * (matchesTotal a b : ℚ) / ((a.length : ℚ) + (b.length : ℚ))

/-! #### Bounds and soundness of `find_longest_match` -/

theorem okJ_spec {a b : List Char} {blo bhi i j : Nat}
    (h : okJ a b blo bhi i j = true) :
    blo ≤ j ∧ j < bhi ∧ matchAt a b i j = true := by
  unfold okJ at h
  simp only [Bool.and_eq_true, decide_eq_true_eq] at h
  exact ⟨h.1.1.1, h.1.1.2, h.1.2⟩

theorem matchAt_get? {a b : List Char} {i j : Nat} (h : matchAt a b i j = true) :
    a.get? i = b.get? j ∧ (a.get? i).isSome := by
  unfold matchAt at h
  rcases ha : a.get? i with _ | x <;> rcases hb : b.get? j with _ | y <;>
    rw [ha, hb] at h
  · cases h
  · cases h
  · cases h
  · simp only [decide_eq_true_eq] at h
    exact ⟨by rw [h], rfl⟩

theorem runLen_le_row (a b : List Char) (alo blo bhi : Nat) :
    ∀ t j, runLen a b alo blo bhi t j ≤ t + 1 := by
  intro t
  induction t with
  | zero =>
    intro j
    unfold runLen
    split <;> omega
  | succ t ih =>
    intro j
    cases j with
    | zero =>
      unfold runLen
      split <;> omega
    | succ j' =>
      unfold runLen
      split
      · have := ih j'; omega
      · omega

theorem runLen_le_col (a b : List Char) (alo blo bhi : Nat) :
    ∀ t j, runLen a b alo blo bhi t j ≤ j + 1 - blo := by
  intro t
  induction t with
  | zero =>
    intro j
    unfold runLen
    split
    · next h => have := (okJ_spec h).1; omega
    · omega
  | succ t ih =>
    intro j
    cases j with
    | zero =>
      unfold runLen
      split
      · next h => have := (okJ_spec h).1; omega
      · omega
    | succ j' =>
      unfold runLen
      split
      · next h =>
        have hblo := (okJ_spec h).1
        have := ih j'
        omega
      · omega

theorem runLen_match (a b : List Char) (alo blo bhi : Nat) :
    ∀ t j k, runLen a b alo blo bhi t j = k →
      ∀ u, u < k → matchAt a b (alo + t + 1 - k + u) (j + 1 - k + u) = true := by
  intro t
  induction t with
  | zero =>
    intro j k hk u hu
    unfold runLen at hk
    split at hk
    · next h =>
      subst hk
      interval_cases u
      have hm := (okJ_spec h).2.2
      have e1 : alo + 0 + 1 - 1 + 0 = alo := by omega
      have e2 : j + 1 - 1 + 0 = j := by omega
      rw [e1, e2]
      exact hm
    · omega
  | succ t ih =>
    intro j k hk u hu
    cases j with
    | zero =>
      unfold runLen at hk
      split at hk
      · next h =>
        have hm := (okJ_spec h).2.2
        subst hk
        interval_cases u
        have e1 : alo + (t + 1) + 1 - 1 + 0 = alo + t + 1 := by omega
        have e2 : 0 + 1 - 1 + 0 = 0 := by omega
        rw [e1, e2]
        exact hm
      · omega
    | succ j' =>
      unfold runLen at hk
      split at hk
      · next h =>
        have hm := (okJ_spec h).2.2
        subst hk
        have hrow := runLen_le_row a b alo blo bhi t j'
        have hcol := runLen_le_col a b alo blo bhi t j'
        by_cases hu' : u < runLen a b alo blo bhi t j'
        · have hih := ih j' (runLen a b alo blo bhi t j') rfl u hu'
          have e1 : alo + (t + 1) + 1 - (runLen a b alo blo bhi t j' + 1) + u
              = alo + t + 1 - runLen a b alo blo bhi t j' + u := by omega
          have e2 : j' + 1 + 1 - (runLen a b alo blo bhi t j' + 1) + u
              = j' + 1 - runLen a b alo blo bhi t j' + u := by omega
          rw [e1, e2]
          exact hih
        · have hu'' : u = runLen a b alo blo bhi t j' := by omega
          subst hu''
          have e1 : alo + (t + 1) + 1 - (runLen a b alo blo bhi t j' + 1)
              + runLen a b alo blo bhi t j' = alo + t + 1 := by omega
          have e2 : j' + 1 + 1 - (runLen a b alo blo bhi t j' + 1)
              + runLen a b alo blo bhi t j' = j' + 1 := by omega
          rw [e1, e2]
          exact hm
      · omega

/-- Generic preservation of an invariant along `List.foldl`. -/
theorem foldl_inv {α β : Type} (P : β → Prop) (Q : α → Prop) (f : β → α → β) :
    ∀ (l : List α) (st : β), (∀ x ∈ l, Q x) →
      (∀ st' x, Q x → P st' → P (f st' x)) → P st → P (l.foldl f st) := by
  intro l
  induction l with
  | nil => intro st _ _ h; exact h
  | cons x xs ih =>
    intro st hq hstep h
    exact ih (f st x) (fun y hy => hq y (List.mem_cons_of_mem _ hy)) hstep
      (hstep st x (hq x (List.mem_cons_self _ _)) h)

/-- The state invariant of the inner double loop: the block lies inside the
rectangle and is a real match. -/
def InnerInv (a b : List Char) (alo ahi blo bhi : Nat) (st : Nat × Nat × Nat) : Prop :=
  alo ≤ st.1 ∧ blo ≤ st.2.1 ∧ st.1 + st.2.2 ≤ ahi ∧ st.2.1 + st.2.2 ≤ bhi ∧
    ∀ u, u < st.2.2 → matchAt a b (st.1 + u) (st.2.1 + u) = true

theorem bestStep_inv (a b : List Char) (alo ahi blo bhi t : Nat)
    (ht : t < ahi - alo) (st : Nat × Nat × Nat) (j : Nat)
    (hj : okJ a b blo bhi (alo + t) j = true)
    (h : InnerInv a b alo ahi blo bhi st) :
    InnerInv a b alo ahi blo bhi (bestStep a b alo blo bhi t st j) := by
  unfold bestStep
  split
  · next hlt =>
    have hrow := runLen_le_row a b alo blo bhi t j
    have hcol := runLen_le_col a b alo blo bhi t j
    have hspec := okJ_spec hj
    unfold InnerInv
    dsimp only
    refine ⟨by omega, by omega, by omega, by omega, ?_⟩
    intro u hu
    exact runLen_match a b alo blo bhi t j _ rfl u hu
  · exact h

theorem innerBest_inv (a b : List Char) (alo ahi blo bhi : Nat)
    (h1 : alo ≤ ahi) (h2 : blo ≤ bhi) :
    InnerInv a b alo ahi blo bhi (innerBest a b alo ahi blo bhi) := by
  unfold innerBest
  apply foldl_inv (InnerInv a b alo ahi blo bhi) (fun t => t < ahi - alo)
  · intro t ht
    exact List.mem_range.mp ht
  · intro st t ht hst
    apply foldl_inv (InnerInv a b alo ahi blo bhi)
      (fun j => okJ a b blo bhi (alo + t) j = true)
    · intro j hjm
      exact (List.mem_filter.mp hjm).2
    · intro st' j hj hst'
      exact bestStep_inv a b alo ahi blo bhi t ht st' j hj hst'
    · exact hst
  · exact ⟨Nat.le_refl _, Nat.le_refl _, by simpa using h1, by simpa using h2,
      fun u hu => by simp at hu⟩

theorem backSteps_le_i (a b : List Char) (alo blo : Nat) :
    ∀ fuel i j, backSteps a b alo blo fuel i j ≤ i - alo := by
  intro fuel
  induction fuel with
  | zero => intro i j; unfold backSteps; omega
  | succ fuel ih =>
    intro i j
    unfold backSteps
    split
    · next h =>
      simp only [Bool.and_eq_true, decide_eq_true_eq] at h
      have := ih (i - 1) (j - 1)
      omega
    · omega

theorem backSteps_le_j (a b : List Char) (alo blo : Nat) :
    ∀ fuel i j, backSteps a b alo blo fuel i j ≤ j - blo := by
  intro fuel
  induction fuel with
  | zero => intro i j; unfold backSteps; omega
  | succ fuel ih =>
    intro i j
    unfold backSteps
    split
    · next h =>
      simp only [Bool.and_eq_true, decide_eq_true_eq] at h
      have := ih (i - 1) (j - 1)
      omega
    · omega

theorem backSteps_match (a b : List Char) (alo blo : Nat) :
    ∀ fuel i j u, u < backSteps a b alo blo fuel i j →
      matchAt a b (i - 1 - u) (j - 1 - u) = true := by
  intro fuel
  induction fuel with
  | zero => intro i j u hu; unfold backSteps at hu; omega
  | succ fuel ih =>
    intro i j u hu
    unfold backSteps at hu
    split at hu
    · next h =>
      simp only [Bool.and_eq_true, decide_eq_true_eq] at h
      cases u with
      | zero =>
        simpa using h.2
      | succ u' =>
        have hih := ih (i - 1) (j - 1) u' (by omega)
        have e1 : i - 1 - 1 - u' = i - 1 - (u' + 1) := by omega
        have e2 : j - 1 - 1 - u' = j - 1 - (u' + 1) := by omega
        rw [e1, e2] at hih
        exact hih
    · omega

theorem fwdSteps_le_x (a b : List Char) (ahi bhi : Nat) :
    ∀ fuel x y, fwdSteps a b ahi bhi fuel x y ≤ ahi - x := by
  intro fuel
  induction fuel with
  | zero => intro x y; unfold fwdSteps; omega
  | succ fuel ih =>
    intro x y
    unfold fwdSteps
    split
    · next h =>
      simp only [Bool.and_eq_true, decide_eq_true_eq] at h
      have := ih (x + 1) (y + 1)
      omega
    · omega

theorem fwdSteps_le_y (a b : List Char) (ahi bhi : Nat) :
    ∀ fuel x y, fwdSteps a b ahi bhi fuel x y ≤ bhi - y := by
  intro fuel
  induction fuel with
  | zero => intro x y; unfold fwdSteps; omega
  | succ fuel ih =>
    intro x y
    unfold fwdSteps
    split
    · next h =>
      simp only [Bool.and_eq_true, decide_eq_true_eq] at h
      have := ih (x + 1) (y + 1)
      omega
    · omega

theorem fwdSteps_match (a b : List Char) (ahi bhi : Nat) :
    ∀ fuel x y u, u < fwdSteps a b ahi bhi fuel x y →
      matchAt a b (x + u) (y + u) = true := by
  intro fuel
  induction fuel with
  | zero => intro x y u hu; unfold fwdSteps at hu; omega
  | succ fuel ih =>
    intro x y u hu
    unfold fwdSteps at hu
    split at hu
    · next h =>
      simp only [Bool.and_eq_true, decide_eq_true_eq] at h
      cases u with
      | zero => simpa using h.2
      | succ u' =>
        have hih := ih (x + 1) (y + 1) u' (by omega)
        have e1 : x + 1 + u' = x + (u' + 1) := by omega
        have e2 : y + 1 + u' = y + (u' + 1) := by omega
        rw [e1, e2] at hih
        exact hih
    · omega

theorem flm_spec (a b : List Char) (alo ahi blo bhi : Nat)
    (h1 : alo ≤ ahi) (h2 : blo ≤ bhi) :
    ∀ i j k, find_longest_match a b alo ahi blo bhi = (i, j, k) →
      alo ≤ i ∧ blo ≤ j ∧ i + k ≤ ahi ∧ j + k ≤ bhi ∧
        ∀ u, u < k → matchAt a b (i + u) (j + u) = true := by
  intro i j k hm
  obtain ⟨hb1, hb2, hb3, hb4, hbm⟩ := innerBest_inv a b alo ahi blo bhi h1 h2
  unfold find_longest_match at hm
  dsimp only at hm
  set ib := innerBest a b alo ahi blo bhi with hib
  set s := backSteps a b alo blo ib.1 ib.1 ib.2.1 with hs
  set f := fwdSteps a b ahi bhi (ahi - (ib.1 - s + (ib.2.2 + s)))
    (ib.1 - s + (ib.2.2 + s)) (ib.2.1 - s + (ib.2.2 + s)) with hf
  have hsle1 : s ≤ ib.1 - alo := backSteps_le_i a b alo blo ib.1 ib.1 ib.2.1
  have hsle2 : s ≤ ib.2.1 - blo := backSteps_le_j a b alo blo ib.1 ib.1 ib.2.1
  have hfle1 : f ≤ ahi - (ib.1 - s + (ib.2.2 + s)) := fwdSteps_le_x a b ahi bhi _ _ _
  have hfle2 : f ≤ bhi - (ib.2.1 - s + (ib.2.2 + s)) := fwdSteps_le_y a b ahi bhi _ _ _
  rw [Prod.mk.injEq, Prod.mk.injEq] at hm
  obtain ⟨hieq, hjeq, hkeq⟩ := hm
  refine ⟨by omega, by omega, by omega, by omega, ?_⟩
  intro u hu
  by_cases hu1 : u < s
  · have hbm' := backSteps_match a b alo blo ib.1 ib.1 ib.2.1 (s - 1 - u) (by omega)
    have e1 : ib.1 - 1 - (s - 1 - u) = i + u := by omega
    have e2 : ib.2.1 - 1 - (s - 1 - u) = j + u := by omega
    rw [e1, e2] at hbm'
    exact hbm'
  · by_cases hu2 : u < s + ib.2.2
    · have hbm' := hbm (u - s) (by omega)
      have e1 : ib.1 + (u - s) = i + u := by omega
      have e2 : ib.2.1 + (u - s) = j + u := by omega
      rw [e1, e2] at hbm'
      exact hbm'
    · have hfm := fwdSteps_match a b ahi bhi (ahi - (ib.1 - s + (ib.2.2 + s)))
        (ib.1 - s + (ib.2.2 + s)) (ib.2.1 - s + (ib.2.2 + s))
        (u - s - ib.2.2) (by omega)
      have e1 : ib.1 - s + (ib.2.2 + s) + (u - s - ib.2.2) = i + u := by omega
      have e2 : ib.2.1 - s + (ib.2.2 + s) + (u - s - ib.2.2) = j + u := by omega
      rw [e1, e2] at hfm
      exact hfm

theorem mtGo_succ (a b : List Char) (fuel alo ahi blo bhi i j k : Nat)
    (hm : find_longest_match a b alo ahi blo bhi = (i, j, k)) :
    mtGo a b (fuel + 1) alo ahi blo bhi
      = if k = 0 then 0
        else k + mtGo a b fuel alo i blo j + mtGo a b fuel (i + k) ahi (j + k) bhi := by
  conv_lhs => rw [mtGo]
  rw [hm]

theorem mtGo_le (a b : List Char) :
    ∀ fuel alo ahi blo bhi, alo ≤ ahi → blo ≤ bhi →
      mtGo a b fuel alo ahi blo bhi ≤ ahi - alo
        ∧ mtGo a b fuel alo ahi blo bhi ≤ bhi - blo := by
  intro fuel
  induction fuel with
  | zero =>
    intro alo ahi blo bhi _ _
    unfold mtGo
    omega
  | succ fuel ih =>
    intro alo ahi blo bhi h1 h2
    rcases hm : find_longest_match a b alo ahi blo bhi with ⟨i, jj⟩
    rcases jj with ⟨j, k⟩
    obtain ⟨hb1, hb2, hb3, hb4, _⟩ := flm_spec a b alo ahi blo bhi h1 h2 i j k hm
    rw [mtGo_succ a b fuel alo ahi blo bhi i j k hm]
    split
    · omega
    · have hl := ih alo i blo j (by omega) (by omega)
      have hr := ih (i + k) ahi (j + k) bhi (by omega) (by omega)
      omega

theorem mtGo_self (a b : List Char) (fuel x y : Nat) : mtGo a b fuel x x y y = 0 := by
  cases fuel with
  | zero => rfl
  | succ fuel =>
    rcases hm : find_longest_match a b x x y y with ⟨i, jj⟩
    rcases jj with ⟨j, k⟩
    obtain ⟨hb1, _, hb3, _, _⟩ :=
      flm_spec a b x x y y (Nat.le_refl x) (Nat.le_refl y) i j k hm
    rw [mtGo_succ a b fuel x x y y i j k hm, if_pos (by omega)]

theorem mtGo_full (a b : List Char) :
    ∀ fuel alo ahi blo bhi, alo ≤ ahi → blo ≤ bhi →
      mtGo a b fuel alo ahi blo bhi = ahi - alo →
      mtGo a b fuel alo ahi blo bhi = bhi - blo →
      ∀ u, u < ahi - alo → a.get? (alo + u) = b.get? (blo + u) := by
  intro fuel
  induction fuel with
  | zero =>
    intro alo ahi blo bhi _ _ hfa _ u hu
    unfold mtGo at hfa
    omega
  | succ fuel ih =>
    intro alo ahi blo bhi h1 h2 hfa hfb u hu
    rcases hm : find_longest_match a b alo ahi blo bhi with ⟨i, jj⟩
    rcases jj with ⟨j, k⟩
    obtain ⟨hb1, hb2, hb3, hb4, hbm⟩ := flm_spec a b alo ahi blo bhi h1 h2 i j k hm
    rw [mtGo_succ a b fuel alo ahi blo bhi i j k hm] at hfa hfb
    by_cases hk : k = 0
    · rw [if_pos hk] at hfa
      omega
    · rw [if_neg hk] at hfa hfb
      have hl := mtGo_le a b fuel alo i blo j (by omega) (by omega)
      have hr := mtGo_le a b fuel (i + k) ahi (j + k) bhi (by omega) (by omega)
      have hleq1 : mtGo a b fuel alo i blo j = i - alo := by omega
      have hleq2 : mtGo a b fuel alo i blo j = j - blo := by omega
      have hreq1 : mtGo a b fuel (i + k) ahi (j + k) bhi = ahi - (i + k) := by omega
      have hreq2 : mtGo a b fuel (i + k) ahi (j + k) bhi = bhi - (j + k) := by omega
      by_cases hu1 : u < i - alo
      · exact ih alo i blo j (by omega) (by omega) hleq1 hleq2 u (by omega)
      · by_cases hu2 : u < i - alo + k
        · have hblock := hbm (u - (i - alo)) (by omega)
          obtain ⟨hgeq, _⟩ := matchAt_get? hblock
          have e1 : i + (u - (i - alo)) = alo + u := by omega
          have e2 : j + (u - (i - alo)) = blo + u := by omega
          rw [e1, e2] at hgeq
          exact hgeq
        · have hih := ih (i + k) ahi (j + k) bhi (by omega) (by omega) hreq1 hreq2
            (u - (i - alo) - k) (by omega)
          have e1 : i + k + (u - (i - alo) - k) = alo + u := by omega
          have e2 : j + k + (u - (i - alo) - k) = blo + u := by omega
          rw [e1, e2] at hih
          exact hih

/-! #### `ratio` on identical inputs: the inner loop stays on the diagonal -/

/-- Eligibility of a position of `b` for `b2j` (in range, not purged). -/
def eligB (a : List Char) (j : Nat) : Bool :=
  match a.get? j with
  | some c => !popularB a c
  | none => false

/-- Length of the maximal eligible run ending at position `j`; against itself
every diagonal position pair of `a` matches. -/
def streakR (a : List Char) : Nat → Nat
  | 0 => if eligB a 0 then 1 else 0
  | j + 1 => if eligB a (j + 1) then streakR a j + 1 else 0

/-- Largest streak ending strictly before row `t`. -/
def maxStreak (a : List Char) : Nat → Nat
  | 0 => 0
  | t + 1 => max (maxStreak a t) (streakR a t)

theorem maxStreak_succ (a : List Char) (t : Nat) :
    maxStreak a (t + 1) = max (maxStreak a t) (streakR a t) := rfl

theorem streakR_succ (a : List Char) (j : Nat) :
    streakR a (j + 1) = if eligB a (j + 1) then streakR a j + 1 else 0 := rfl

theorem streakR_pos (a : List Char) (j : Nat) (h : eligB a j = true) :
    1 ≤ streakR a j := by
  cases j with
  | zero => unfold streakR; rw [h]; simp
  | succ j' => unfold streakR; rw [h]; simp

theorem streakR_zero (a : List Char) (j : Nat) (h : eligB a j = false) :
    streakR a j = 0 := by
  cases j with
  | zero => unfold streakR; rw [h]; rfl
  | succ j' => unfold streakR; rw [h]; rfl

theorem streak_le_max (a : List Char) : ∀ t j, j < t → streakR a j ≤ maxStreak a t := by
  intro t
  induction t with
  | zero => intro j hj; omega
  | succ t ih =>
    intro j hj
    unfold maxStreak
    by_cases hjt : j < t
    · have := ih j hjt; omega
    · have hjt' : j = t := by omega
      subst hjt'
      omega

theorem okJ_col_elig {a : List Char} {blo bhi i j : Nat}
    (h : okJ a a blo bhi i j = true) : eligB a j = true := by
  unfold okJ at h
  simp only [Bool.and_eq_true] at h
  obtain ⟨⟨⟨_, _⟩, hmt⟩, hpop⟩ := h
  obtain ⟨hgeq, hsome⟩ := matchAt_get? hmt
  unfold eligB
  rcases hg : a.get? j with _ | c
  · rw [hg] at hgeq
    rw [hgeq] at hsome
    cases hsome
  · rw [hg] at hgeq
    rw [hgeq] at hpop
    exact hpop

theorem okJ_row_elig {a : List Char} {blo bhi i j : Nat}
    (h : okJ a a blo bhi i j = true) : eligB a i = true := by
  unfold okJ at h
  simp only [Bool.and_eq_true] at h
  obtain ⟨⟨⟨_, _⟩, hmt⟩, hpop⟩ := h
  unfold eligB
  rcases hg : a.get? i with _ | c
  · rw [hg] at hpop
    cases hpop
  · rw [hg] at hpop
    exact hpop

theorem okJ_self_diag (a : List Char) (t : Nat) (ht : t < a.length) :
    okJ a a 0 a.length t t = eligB a t := by
  unfold okJ eligB matchAt
  rcases hg : a.get? t with _ | c
  · exact absurd (List.get?_eq_none.mp hg) (by omega)
  · simp [ht]

theorem runLen_le_streak_col (a : List Char) :
    ∀ t j, runLen a a 0 0 a.length t j ≤ streakR a j := by
  intro t
  induction t with
  | zero =>
    intro j
    unfold runLen
    split
    · next h => exact streakR_pos a j (okJ_col_elig h)
    · omega
  | succ t ih =>
    intro j
    cases j with
    | zero =>
      unfold runLen
      split
      · next h => exact streakR_pos a 0 (okJ_col_elig h)
      · omega
    | succ j' =>
      unfold runLen
      split
      · next h =>
        have helig : eligB a (j' + 1) = true := okJ_col_elig h
        have hih := ih j'
        unfold streakR
        rw [helig, if_pos rfl]
        omega
      · omega

theorem runLen_le_streak_row (a : List Char) :
    ∀ t j, runLen a a 0 0 a.length t j ≤ streakR a t := by
  intro t
  induction t with
  | zero =>
    intro j
    unfold runLen
    split
    · next h => exact streakR_pos a 0 (okJ_row_elig h)
    · omega
  | succ t ih =>
    intro j
    cases j with
    | zero =>
      unfold runLen
      split
      · next h =>
        exact streakR_pos a (t + 1) (okJ_row_elig (by simpa using h))
      · omega
    | succ j' =>
      unfold runLen
      split
      · next h =>
        have helig : eligB a (t + 1) = true := okJ_row_elig (by simpa using h)
        have hih := ih j'
        unfold streakR
        rw [helig, if_pos rfl]
        omega
      · omega

theorem runLen_self_diag (a : List Char) :
    ∀ t, t < a.length → runLen a a 0 0 a.length t t = streakR a t := by
  intro t
  induction t with
  | zero =>
    intro ht
    unfold runLen
    rw [show okJ a a 0 a.length (0 + 0) 0 = eligB a 0 from by
      simpa using okJ_self_diag a 0 ht]
    unfold streakR
    rcases eligB a 0 <;> rfl
  | succ t ih =>
    intro ht
    unfold runLen
    rw [show okJ a a 0 a.length (0 + t + 1) (t + 1) = eligB a (t + 1) from by
      have := okJ_self_diag a (t + 1) ht
      simpa using this]
    rcases he : eligB a (t + 1) with _ | _
    · rw [streakR_zero a (t + 1) he]
      rfl
    · rw [if_pos rfl, ih (by omega), streakR_succ, he, if_pos rfl]

theorem foldl_bestStep_no_update (a b : List Char) (alo blo bhi t : Nat)
    (st : Nat × Nat × Nat) :
    ∀ l : List Nat, (∀ j ∈ l, runLen a b alo blo bhi t j ≤ st.2.2) →
      l.foldl (bestStep a b alo blo bhi t) st = st := by
  intro l
  induction l with
  | nil => intro _; rfl
  | cons x xs ih =>
    intro h
    have hx := h x (List.mem_cons_self _ _)
    have hstep : bestStep a b alo blo bhi t st x = st := by
      unfold bestStep
      rw [if_neg (by omega)]
    rw [List.foldl_cons, hstep]
    exact ih (fun j hj => h j (List.mem_cons_of_mem _ hj))

theorem row_fold_diag (a : List Char) (t : Nat) (ht : t < a.length) (bi : Nat) :
    (jsOf a a 0 a.length (0 + t)).foldl (bestStep a a 0 0 a.length t)
        (bi, bi, maxStreak a t)
      = if maxStreak a t < streakR a t
        then (t + 1 - streakR a t, t + 1 - streakR a t, streakR a t)
        else (bi, bi, maxStreak a t) := by
  rw [Nat.zero_add]
  rcases helig : eligB a t with _ | _
  · -- the row element was purged: the row contributes nothing
    have hjs : jsOf a a 0 a.length t = [] := by
      unfold jsOf
      rw [List.filter_eq_nil_iff]
      intro j _ hok
      rw [okJ_row_elig hok] at helig
      cases helig
    rw [hjs, List.foldl_nil, if_neg]
    rw [streakR_zero a t helig]
    omega
  · have hn : a.length = t + 1 + (a.length - t - 1) := by omega
    have hrange : List.range a.length
        = (List.range t ++ [t]) ++ (List.range (a.length - t - 1)).map (t + 1 + ·) := by
      conv_lhs => rw [hn]
      rw [List.range_add, List.range_succ]
    unfold jsOf
    rw [hrange, List.filter_append, List.filter_append, List.foldl_append,
      List.foldl_append]
    have h1 : (List.filter (fun j => okJ a a 0 a.length t j) (List.range t)).foldl
        (bestStep a a 0 0 a.length t) (bi, bi, maxStreak a t)
        = (bi, bi, maxStreak a t) := by
      apply foldl_bestStep_no_update
      intro j hj
      have hjlt : j < t := List.mem_range.mp (List.mem_of_mem_filter hj)
      have hc := runLen_le_streak_col a t j
      have hm := streak_le_max a t j hjlt
      dsimp only
      omega
    rw [h1]
    have hok_t : okJ a a 0 a.length t t = true := by
      rw [okJ_self_diag a t ht]
      exact helig
    have h2 : List.filter (fun j => okJ a a 0 a.length t j) [t] = [t] := by
      rw [List.filter_cons, if_pos hok_t]
      rfl
    rw [h2]
    have hrun : runLen a a 0 0 a.length t t = streakR a t := runLen_self_diag a t ht
    rw [List.foldl_cons, List.foldl_nil]
    by_cases hup : maxStreak a t < streakR a t
    · rw [if_pos hup]
      have hstep : bestStep a a 0 0 a.length t (bi, bi, maxStreak a t) t
          = (t + 1 - streakR a t, t + 1 - streakR a t, streakR a t) := by
        unfold bestStep
        rw [hrun]
        dsimp only
        rw [if_pos hup, Nat.zero_add]
      rw [hstep]
      apply foldl_bestStep_no_update
      intro j _
      have := runLen_le_streak_row a t j
      dsimp only
      omega
    · rw [if_neg hup]
      have hstep : bestStep a a 0 0 a.length t (bi, bi, maxStreak a t) t
          = (bi, bi, maxStreak a t) := by
        unfold bestStep
        rw [hrun]
        dsimp only
        rw [if_neg hup]
      rw [hstep]
      apply foldl_bestStep_no_update
      intro j _
      have := runLen_le_streak_row a t j
      dsimp only
      omega

theorem innerBest_self_diag (a : List Char) :
    ∃ bi, innerBest a a 0 a.length 0 a.length = (bi, bi, maxStreak a a.length) := by
  suffices h : ∀ t, t ≤ a.length → ∃ bi,
      (List.range t).foldl
        (fun st t' => (jsOf a a 0 a.length (0 + t')).foldl
          (bestStep a a 0 0 a.length t') st)
        (0, 0, 0) = (bi, bi, maxStreak a t) by
    obtain ⟨bi, hbi⟩ := h a.length (Nat.le_refl _)
    exact ⟨bi, hbi⟩
  intro t
  induction t with
  | zero => intro _; exact ⟨0, rfl⟩
  | succ t ih =>
    intro ht
    obtain ⟨bi, hbi⟩ := ih (by omega)
    rw [List.range_succ, List.foldl_append, hbi, List.foldl_cons, List.foldl_nil,
      row_fold_diag a t (by omega) bi]
    by_cases hup : maxStreak a t < streakR a t
    · rw [if_pos hup]
      refine ⟨t + 1 - streakR a t, ?_⟩
      have hmax : maxStreak a (t + 1) = streakR a t := by
        rw [maxStreak_succ]
        omega
      rw [hmax]
    · rw [if_neg hup]
      refine ⟨bi, ?_⟩
      have hmax : maxStreak a (t + 1) = maxStreak a t := by
        rw [maxStreak_succ]
        omega
      rw [hmax]

theorem matchAt_self_diag (a : List Char) (p : Nat) (hp : p < a.length) :
    matchAt a a p p = true := by
  unfold matchAt
  rcases hg : a.get? p with _ | c
  · exact absurd (List.get?_eq_none.mp hg) (by omega)
  · simp

theorem backSteps_self (a : List Char) :
    ∀ fuel i, i ≤ fuel → i ≤ a.length → backSteps a a 0 0 fuel i i = i := by
  intro fuel
  induction fuel with
  | zero =>
    intro i h1 _
    unfold backSteps
    omega
  | succ fuel ih =>
    intro i h1 h2
    cases i with
    | zero =>
      unfold backSteps
      rw [if_neg (by simp)]
    | succ i' =>
      unfold backSteps
      rw [if_pos (by
        simp only [Bool.and_eq_true, decide_eq_true_eq]
        exact ⟨⟨by omega, by omega⟩, by
          have : i' + 1 - 1 = i' := by omega
          rw [this]
          exact matchAt_self_diag a i' (by omega)⟩)]
      have : i' + 1 - 1 = i' := by omega
      rw [this, ih i' (by omega) (by omega)]

theorem fwdSteps_self (a : List Char) :
    ∀ fuel x, a.length - x ≤ fuel → fwdSteps a a a.length a.length fuel x x
      = a.length - x := by
  intro fuel
  induction fuel with
  | zero =>
    intro x h
    unfold fwdSteps
    omega
  | succ fuel ih =>
    intro x h
    by_cases hx : x < a.length
    · unfold fwdSteps
      rw [if_pos (by
        simp only [Bool.and_eq_true, decide_eq_true_eq]
        exact ⟨⟨hx, hx⟩, matchAt_self_diag a x hx⟩)]
      rw [ih (x + 1) (by omega)]
      omega
    · unfold fwdSteps
      rw [if_neg (by
        simp only [Bool.and_eq_true, decide_eq_true_eq]
        intro hcon
        exact absurd hcon.1.1 hx)]
      omega

theorem flm_self (a : List Char) :
    find_longest_match a a 0 a.length 0 a.length = (0, 0, a.length) := by
  obtain ⟨bi, hib⟩ := innerBest_self_diag a
  obtain ⟨hb1, hb2, hb3, hb4, _⟩ :=
    innerBest_inv a a 0 a.length 0 a.length (Nat.zero_le _) (Nat.zero_le _)
  rw [hib] at hb3
  dsimp only at hb3
  unfold find_longest_match
  rw [hib]
  dsimp only
  rw [backSteps_self a bi bi (Nat.le_refl _) (by omega)]
  rw [Nat.sub_self, Nat.zero_add]
  have hf := fwdSteps_self a (a.length - (maxStreak a a.length + bi))
    (maxStreak a a.length + bi) (Nat.le_refl _)
  rw [hf]
  have he : maxStreak a a.length + bi + (a.length - (maxStreak a a.length + bi))
      = a.length := by omega
  rw [he]

theorem matchesTotal_self (a : List Char) : matchesTotal a a = a.length := by
  unfold matchesTotal
  rcases hn : a.length with _ | n
  · rfl
  · have hm := flm_self a
    rw [hn] at hm
    rw [show n + 1 + (n + 1) = n + 1 + n + 1 from by omega,
      mtGo_succ a a (n + 1 + n) 0 (n + 1) 0 (n + 1) 0 0 (n + 1) hm,
      if_neg (by omega), mtGo_self, Nat.zero_add, mtGo_self]

/-! #### The three `ratio` properties -/

theorem ratio_self (a : List Char) : ratio a a = 1 := by
  unfold ratio
  by_cases h : a.length + a.length = 0
  · rw [if_pos h]
  · rw [if_neg h, matchesTotal_self]
    have hn : (0 : ℚ) < (a.length : ℚ) := by
      have : 0 < a.length := by omega
      exact_mod_cast this
    field_simp
    ring

theorem ratio_nonneg (a b : List Char) : 0 ≤ ratio a b := by
  unfold ratio
  split
  · norm_num
  · next h =>
    apply div_nonneg
    · positivity
    · positivity

theorem ratio_le_one (a b : List Char) : ratio a b ≤ 1 := by
  unfold ratio
  split
  · norm_num
  · next h =>
    rw [div_le_one (by
      have : 0 < a.length + b.length := by omega
      have hq : (0 : ℚ) < (a.length : ℚ) + (b.length : ℚ) := by exact_mod_cast this
      exact hq)]
    have hle := mtGo_le a b (a.length + b.length) 0 a.length 0 b.length
      (Nat.zero_le _) (Nat.zero_le _)
    have h2 : 2 * matchesTotal a b ≤ a.length + b.length := by
      unfold matchesTotal
      omega
    have := (@Nat.cast_le ℚ _ _ _).mpr h2
    push_cast at this ⊢
    linarith

theorem ratio_eq_one_iff (a b : List Char) : ratio a b = 1 ↔ a = b := by
  constructor
  · intro h
    unfold ratio at h
    split at h
    · next hz =>
      have ha : a.length = 0 := by omega
      have hb : b.length = 0 := by omega
      rw [List.length_eq_zero] at ha hb
      rw [ha, hb]
    · next hz =>
      have hq : (0 : ℚ) < (a.length : ℚ) + (b.length : ℚ) := by
        have : 0 < a.length + b.length := by omega
        exact_mod_cast this
      rw [div_eq_one_iff_eq (by linarith)] at h
      have h2 : 2 * matchesTotal a b = a.length + b.length := by
        exact_mod_cast h
      have hle := mtGo_le a b (a.length + b.length) 0 a.length 0 b.length
        (Nat.zero_le _) (Nat.zero_le _)
      have hMa : matchesTotal a b = a.length := by
        unfold matchesTotal
        unfold matchesTotal at h2
        omega
      have hMb : matchesTotal a b = b.length := by
        unfold matchesTotal
        unfold matchesTotal at h2
        omega
      have hfull := mtGo_full a b (a.length + b.length) 0 a.length 0 b.length
        (Nat.zero_le _) (Nat.zero_le _) (by
          have := hMa
          unfold matchesTotal at this
          omega) (by
          have := hMb
          unfold matchesTotal at this
          omega)
      apply List.ext_get?
      intro u
      by_cases hu : u < a.length
      · have := hfull u (by omega)
        simpa using this
      · rw [List.get?_eq_none.mpr (by omega), List.get?_eq_none.mpr (by omega)]
  · rintro rfl
    exact ratio_self a

/-! #### Claim C9 -/

/-- C9 counterexample: the similarity ratio of `difflib.SequenceMatcher` is
not symmetric — `ratio("tide", "diet")` is 1/4 while `ratio("diet", "tide")`
is 1/2, so the claimed symmetry fails. -/
theorem c9_symmetry_counterexample :
    ratio (String.toList "tide") (String.toList "diet")
      ≠ ratio (String.toList "diet") (String.toList "tide") := by
  have h1 : matchesTotal (String.toList "tide") (String.toList "diet") = 1 := by decide
  have h2 : matchesTotal (String.toList "diet") (String.toList "tide") = 2 := by decide
  have hl1 : (String.toList "tide").length = 4 := by decide
  have hl2 : (String.toList "diet").length = 4 := by decide
  unfold ratio
  rw [h1, h2, hl1, hl2]
  norm_num

/-- C9 (amended): the similarity ratio used by the fuzzy matcher always lies
in the range [0, 1] and equals 1.0 exactly for identical strings; it is not
symmetric in general. -/
theorem c9_ratio_range_and_identity (a b : List Char) :
    0 ≤ ratio a b ∧ ratio a b ≤ 1 ∧ (ratio a b = 1 ↔ a = b) :=
  ⟨ratio_nonneg a b, ratio_le_one a b, ratio_eq_one_iff a b⟩

/-!
### `match_with_spotify_tracks` (file_manager.py lines 246-314)

The function builds the set of normalized local track names (one per local
file, from its metadata title and artist), the set of normalized Spotify
track names (track name with the artist list joined by ", "), takes the
intersection and both differences, and then, for every local-only entry,
scans the spotify-only entries keeping the first candidate whose ratio
strictly exceeds both the running best and the 0.8 threshold.  Python
iterates `set`s in unspecified order; the model enumerates each set in
first-occurrence order (`dedup`), which the claims do not depend on.
`if best_match:` is Python truthiness, false for `None` and for the empty
string alike, hence the `isEmpty` guard. -/

structure SpotifyTrack where
  name : List Char
  artists : List (List Char)

structure MatchResult where
  matched : List (List Char)
  local_only : List (List Char)
  spotify_only : List (List Char)
  match_confidence : List (List Char × List Char × ℚ)

/-- `', '.join(track['artists'])`. -/
def joinArtists (art : List (List Char)) : List Char :=
  List.intercalate (',' :: ' ' :: []) art

/-- The inner loop over `spotify_only_songs` for one `local_song`, starting
from `best_match = None`, `best_ratio = 0`. -/
def bestCandidate (localSong : List Char) (cands : List (List Char)) :
    Option (List Char) × ℚ :=
  cands.foldl
    (fun st s =>
      if st.2 < ratio localSong s ∧ (8 : ℚ) / 10 < ratio localSong s then
        (some s, ratio localSong s)
      else st)
    (none, 0)

/-- `FileManager.match_with_spotify_tracks`, taking the (title, artist)
pairs of the local files and the Spotify track list. -/
def match_with_spotify_tracks (locals : List (List Char × List Char))
    (tracks : List SpotifyTrack) : MatchResult :=
  let localSongs := (locals.map (fun p => _normalize_track_name p.1 p.2)).dedup
  let spotifySongs :=
    (tracks.map (fun t => _normalize_track_name t.name (joinArtists t.artists))).dedup
  let matchedSongs := localSongs.filter (fun s => s ∈ spotifySongs)
  let localOnly := localSongs.filter (fun s => s ∉ spotifySongs)
  let spotifyOnly := spotifySongs.filter (fun s => s ∉ localSongs)
  { matched := matchedSongs
    local_only := localOnly
    spotify_only := spotifyOnly
    match_confidence := localOnly.filterMap (fun l =>
      match bestCandidate l spotifyOnly with
      | (some m, r) => if m.isEmpty then none else some (l, m, r)
      | (none, _) => none) }

theorem bestCandidate_conf (l : List Char) (cands : List (List Char)) :
    ∀ m r, bestCandidate l cands = (some m, r) → (8 : ℚ) / 10 < r := by
  have hinv : ((bestCandidate l cands).1.isSome →
      (8 : ℚ) / 10 < (bestCandidate l cands).2) := by
    unfold bestCandidate
    apply foldl_inv (fun st : Option (List Char) × ℚ =>
      st.1.isSome → (8 : ℚ) / 10 < st.2) (fun _ => True)
    · intro x _
      trivial
    · intro st s _ hst
      dsimp only
      split
      · next hcond => intro _; exact hcond.2
      · exact hst
    · intro hcon
      cases hcon
  intro m r hmr
  rw [hmr] at hinv
  exact hinv rfl

/-- C1: every entry of the fuzzy-match map `match_confidence` has a
similarity score strictly above 0.8, and its key lies in `local_only` and
never in `matched`. -/
theorem c1_fuzzy_soundness (locals : List (List Char × List Char))
    (tracks : List SpotifyTrack) :
    ∀ e ∈ (match_with_spotify_tracks locals tracks).match_confidence,
      (8 : ℚ) / 10 < e.2.2
      ∧ e.1 ∈ (match_with_spotify_tracks locals tracks).local_only
      ∧ e.1 ∉ (match_with_spotify_tracks locals tracks).matched := by
  intro e he
  unfold match_with_spotify_tracks at he ⊢
  dsimp only at he ⊢
  obtain ⟨l, hl, hfl⟩ := List.mem_filterMap.mp he
  rcases hbc : bestCandidate l
      (((tracks.map (fun t =>
          _normalize_track_name t.name (joinArtists t.artists))).dedup).filter
        (fun s => s ∉ (locals.map (fun p => _normalize_track_name p.1 p.2)).dedup))
    with ⟨om, r⟩
  rw [hbc] at hfl
  rcases om with _ | m
  · cases hfl
  · rw [show (match (some m, r) with
        | (some m, r) => if m.isEmpty then none else some (l, m, r)
        | (none, _) => none)
        = if m.isEmpty then none else some (l, m, r) from rfl] at hfl
    split at hfl
    · cases hfl
    · have heq : (l, m, r) = e := Option.some.inj hfl
      subst heq
      refine ⟨bestCandidate_conf l _ m r hbc, hl, ?_⟩
      intro hcon
      have h1 := (List.mem_filter.mp hl).2
      have h2 := (List.mem_filter.mp hcon).2
      simp only [decide_eq_true_eq] at h1 h2
      exact h1 h2

set_option maxRecDepth 8000 in
/-- C1 witness: local track ("aaaaa", "b") against Spotify track
("aaaaa", ["c"]); the normalized names "aaaaa b" and "aaaaa c" have ratio
6/7 > 0.8, so one fuzzy entry is produced. -/
theorem c1_fuzzy_soundness_witness :
    ((String.toList "aaaaa b", String.toList "aaaaa c", (6 : ℚ) / 7)
        ∈ (match_with_spotify_tracks [(String.toList "aaaaa", String.toList "b")]
            [⟨String.toList "aaaaa", [String.toList "c"]⟩]).match_confidence)
    ∧ ((8 : ℚ) / 10 < (6 : ℚ) / 7
      ∧ String.toList "aaaaa b"
          ∈ (match_with_spotify_tracks [(String.toList "aaaaa", String.toList "b")]
              [⟨String.toList "aaaaa", [String.toList "c"]⟩]).local_only
      ∧ String.toList "aaaaa b"
          ∉ (match_with_spotify_tracks [(String.toList "aaaaa", String.toList "b")]
              [⟨String.toList "aaaaa", [String.toList "c"]⟩]).matched) := by
  have hr : ratio (String.toList "aaaaa b") (String.toList "aaaaa c") = 6 / 7 := by
    have hm : matchesTotal (String.toList "aaaaa b") (String.toList "aaaaa c") = 6 := by
      decide
    have hl1 : (String.toList "aaaaa b").length = 7 := by decide
    have hl2 : (String.toList "aaaaa c").length = 7 := by decide
    unfold ratio
    rw [hm, hl1, hl2]
    norm_num
  have hmem : (String.toList "aaaaa b", String.toList "aaaaa c", (6 : ℚ) / 7)
      ∈ (match_with_spotify_tracks [(String.toList "aaaaa", String.toList "b")]
          [⟨String.toList "aaaaa", [String.toList "c"]⟩]).match_confidence := by
    unfold match_with_spotify_tracks
    dsimp only
    have h1 : (([(String.toList "aaaaa", String.toList "b")].map
          (fun p => _normalize_track_name p.1 p.2)).dedup).filter
        (fun s => s ∉ ([(⟨String.toList "aaaaa", [String.toList "c"]⟩ :
            SpotifyTrack)].map
          (fun t => _normalize_track_name t.name (joinArtists t.artists))).dedup)
        = [String.toList "aaaaa b"] := by decide
    have h2 : (([(⟨String.toList "aaaaa", [String.toList "c"]⟩ :
            SpotifyTrack)].map
          (fun t => _normalize_track_name t.name (joinArtists t.artists))).dedup).filter
        (fun s => s ∉ ([(String.toList "aaaaa", String.toList "b")].map
          (fun p => _normalize_track_name p.1 p.2)).dedup)
        = [String.toList "aaaaa c"] := by decide
    rw [h1, h2, List.filterMap_cons]
    have hbest : bestCandidate (String.toList "aaaaa b") [String.toList "aaaaa c"]
        = (some (String.toList "aaaaa c"), (6 : ℚ) / 7) := by
      unfold bestCandidate
      rw [List.foldl_cons, List.foldl_nil]
      dsimp only
      rw [hr, if_pos (by norm_num)]
    rw [hbest]
    dsimp only
    rw [if_neg (by decide)]
    exact List.mem_singleton.mpr rfl
  exact ⟨hmem,
    c1_fuzzy_soundness [(String.toList "aaaaa", String.toList "b")]
      [⟨String.toList "aaaaa", [String.toList "c"]⟩] _ hmem⟩

/-- C2: the matcher's output partitions both identity sets:
`matched ∪ local_only` is the local identity set and `matched ∩ local_only`
is empty, and symmetrically for the catalog side. -/
theorem c2_set_partition (locals : List (List Char × List Char))
    (tracks : List SpotifyTrack) :
    ((match_with_spotify_tracks locals tracks).matched.toFinset
        ∪ (match_with_spotify_tracks locals tracks).local_only.toFinset
      = ((locals.map (fun p => _normalize_track_name p.1 p.2)).toFinset))
    ∧ ((match_with_spotify_tracks locals tracks).matched.toFinset
        ∩ (match_with_spotify_tracks locals tracks).local_only.toFinset = ∅)
    ∧ ((match_with_spotify_tracks locals tracks).matched.toFinset
        ∪ (match_with_spotify_tracks locals tracks).spotify_only.toFinset
      = ((tracks.map (fun t =>
          _normalize_track_name t.name (joinArtists t.artists))).toFinset))
    ∧ ((match_with_spotify_tracks locals tracks).matched.toFinset
        ∩ (match_with_spotify_tracks locals tracks).spotify_only.toFinset = ∅) := by
  unfold match_with_spotify_tracks
  dsimp only
  refine ⟨?_, ?_, ?_, ?_⟩
  · ext x
    simp only [Finset.mem_union, List.mem_toFinset, List.mem_filter,
      List.mem_dedup, decide_eq_true_eq]
    by_cases hx : x ∈ tracks.map (fun t =>
        _normalize_track_name t.name (joinArtists t.artists))
    · constructor
      · rintro (⟨h, _⟩ | ⟨h, _⟩) <;> exact h
      · intro h
        exact Or.inl ⟨h, hx⟩
    · constructor
      · rintro (⟨h, _⟩ | ⟨h, _⟩) <;> exact h
      · intro h
        exact Or.inr ⟨h, hx⟩
  · ext x
    simp only [Finset.mem_inter, List.mem_toFinset, List.mem_filter,
      Finset.not_mem_empty, iff_false, decide_eq_true_eq]
    rintro ⟨⟨_, h1⟩, ⟨_, h2⟩⟩
    exact h2 h1
  · ext x
    simp only [Finset.mem_union, List.mem_toFinset, List.mem_filter,
      List.mem_dedup, decide_eq_true_eq]
    by_cases hx : x ∈ locals.map (fun p => _normalize_track_name p.1 p.2)
    · constructor
      · rintro (⟨_, h⟩ | ⟨h, _⟩) <;> exact h
      · intro h
        exact Or.inl ⟨hx, h⟩
    · constructor
      · rintro (⟨_, h⟩ | ⟨h, _⟩) <;> exact h
      · intro h
        exact Or.inr ⟨h, hx⟩
  · ext x
    simp only [Finset.mem_inter, List.mem_toFinset, List.mem_filter,
      Finset.not_mem_empty, iff_false, decide_eq_true_eq]
    rintro ⟨⟨h1, _⟩, ⟨_, h2⟩⟩
    exact h2 h1

/-!
### `pathlib` name parts and `_extract_metadata` (file_manager.py lines 81-114)

`PurePath.suffix` is `name[i:]` where `i = name.rfind('.')` provided
`0 < i < len(name) - 1`, else the empty string; `PurePath.stem` is `name[:i]`
under the same condition, else the whole name.  The mutagen constructors
`MP3(...)` / `FLAC(...)` are the external tag-reading collaborator: an
oracle value `some tags` models a successful call, `none` models any raised
exception, caught by the surrounding `try`. -/

/-- Index of the last `'.'` of a file name, Python `name.rfind('.')`. -/
def rfindDot (name : List Char) : Option Nat :=
  ((List.range name.length).filter (fun i => name.get? i = some '.')).getLast?

/-- `PurePath.suffix` of a file name. -/
def pathSuffix (name : List Char) : List Char :=
  match rfindDot name with
  | some i => if 0 < i ∧ i < name.length - 1 then name.drop i else []
  | none => []

/-- `PurePath.stem` of a file name. -/
def pathStem (name : List Char) : List Char :=
  match rfindDot name with
  | some i => if 0 < i ∧ i < name.length - 1 then name.take i else name
  | none => name

/-- The ID3 frames and stream info read from an MP3 file. -/
structure Mp3Tags where
  TIT2 : Option (List Char)
  TPE1 : Option (List Char)
  TALB : Option (List Char)
  length : ℚ
  bitrate : Nat

/-- The Vorbis comments and stream info read from a FLAC file. -/
structure FlacTags where
  TITLE : Option (List Char)
  ARTIST : Option (List Char)
  ALBUM : Option (List Char)
  length : ℚ
  bitrate : Nat

/-- The metadata record returned by `_extract_metadata`. -/
structure Metadata where
  title : List Char
  artist : List Char
  album : List Char
  duration : ℚ
  bitrate : Nat
  format : List Char

def unknownStr : List Char := String.toList "Unknown"

/-- The record returned when no tag branch applies or tag reading raised:
title is the stem, artist and album are "Unknown", duration and bitrate are
zero, format is the upper-cased extension without its leading dot. -/
def fallbackMetadata (name : List Char) : Metadata where
  title := pathStem name
  artist := unknownStr
  album := unknownStr
  duration := 0
  bitrate := 0
  format := ((pathSuffix name).map Char.toUpper).drop 1

/-- `FileManager._extract_metadata`, over the file name and the two
tag-reading oracles. -/
def _extract_metadata (name : List Char) (mp3Read : Option Mp3Tags)
    (flacRead : Option FlacTags) : Metadata :=
  if (pathSuffix name).map Char.toLower = String.toList ".mp3" then
    match mp3Read with
    | some audio =>
      { title := audio.TIT2.getD unknownStr
        artist := audio.TPE1.getD unknownStr
        album := audio.TALB.getD unknownStr
        duration := audio.length
        bitrate := audio.bitrate
        format := String.toList "MP3" }
    | none => fallbackMetadata name
  else if (pathSuffix name).map Char.toLower = String.toList ".flac" then
    match flacRead with
    | some audio =>
      { title := audio.TITLE.getD unknownStr
        artist := audio.ARTIST.getD unknownStr
        album := audio.ALBUM.getD unknownStr
        duration := audio.length
        bitrate := audio.bitrate
        format := String.toList "FLAC" }
    | none => fallbackMetadata name
  else fallbackMetadata name

/-- C8: metadata extraction is a total function of its inputs (it never
raises), and on any extraction failure — a tag-reading exception for the
`.mp3` or `.flac` branch — it returns exactly the degraded record. -/
theorem c8_extraction_fallback (name : List Char) (mp3Read : Option Mp3Tags)
    (flacRead : Option FlacTags)
    (h : ((pathSuffix name).map Char.toLower = String.toList ".mp3" ∧ mp3Read = none)
      ∨ ((pathSuffix name).map Char.toLower = String.toList ".flac" ∧ flacRead = none)) :
    _extract_metadata name mp3Read flacRead
      = { title := pathStem name
          artist := unknownStr
          album := unknownStr
          duration := 0
          bitrate := 0
          format := ((pathSuffix name).map Char.toUpper).drop 1 } := by
  unfold _extract_metadata
  rcases h with ⟨hs, hr⟩ | ⟨hs, hr⟩
  · rw [if_pos hs, hr]
    rfl
  · by_cases hmp3 : (pathSuffix name).map Char.toLower = String.toList ".mp3"
    · rw [hs] at hmp3
      exact absurd hmp3 (by decide)
    · rw [if_neg hmp3, if_pos hs, hr]
      rfl

/-- C8 witness: a file `broken.mp3` whose tag block raises still yields the
degraded record with title "broken" and bitrate 0. -/
theorem c8_extraction_fallback_witness :
    (((pathSuffix (String.toList "broken.mp3")).map Char.toLower
        = String.toList ".mp3" ∧ (none : Option Mp3Tags) = none)
      ∨ ((pathSuffix (String.toList "broken.mp3")).map Char.toLower
        = String.toList ".flac" ∧ (none : Option FlacTags) = none))
    ∧ _extract_metadata (String.toList "broken.mp3") none none
      = { title := pathStem (String.toList "broken.mp3")
          artist := unknownStr
          album := unknownStr
          duration := 0
          bitrate := 0
          format := ((pathSuffix (String.toList "broken.mp3")).map Char.toUpper).drop 1 }
    ∧ pathStem (String.toList "broken.mp3") = String.toList "broken" :=
  ⟨Or.inl ⟨by decide, rfl⟩,
   c8_extraction_fallback (String.toList "broken.mp3") none none
     (Or.inl ⟨by decide, rfl⟩),
   by decide⟩

/-- C10 (implicit): for every file whose extension is neither `.mp3` nor
`.flac` (case-insensitively) — the other supported audio extensions and all
video extensions included — extraction returns the filename-derived fallback
record regardless of the oracles, and the oracles are never consulted. -/
theorem c10_other_extensions_fallback (name : List Char)
    (h1 : (pathSuffix name).map Char.toLower ≠ String.toList ".mp3")
    (h2 : (pathSuffix name).map Char.toLower ≠ String.toList ".flac") :
    ∀ (m₁ m₂ : Option Mp3Tags) (f₁ f₂ : Option FlacTags),
      _extract_metadata name m₁ f₁ = _extract_metadata name m₂ f₂
      ∧ _extract_metadata name m₁ f₁
        = { title := pathStem name
            artist := unknownStr
            album := unknownStr
            duration := 0
            bitrate := 0
            format := ((pathSuffix name).map Char.toUpper).drop 1 } := by
  intro m₁ m₂ f₁ f₂
  unfold _extract_metadata
  rw [if_neg h1, if_neg h2, if_neg h1, if_neg h2]
  exact ⟨rfl, rfl⟩

/-- C10 witness: a `.mp4` video file always gets the fallback record, with
any oracle values. -/
theorem c10_other_extensions_fallback_witness :
    ((pathSuffix (String.toList "clip.mp4")).map Char.toLower
        ≠ String.toList ".mp3")
    ∧ ((pathSuffix (String.toList "clip.mp4")).map Char.toLower
        ≠ String.toList ".flac")
    ∧ (_extract_metadata (String.toList "clip.mp4")
          (some ⟨some (String.toList "t"), none, none, 3, 128⟩) none
        = _extract_metadata (String.toList "clip.mp4") none none
      ∧ _extract_metadata (String.toList "clip.mp4")
          (some ⟨some (String.toList "t"), none, none, 3, 128⟩) none
        = { title := pathStem (String.toList "clip.mp4")
            artist := unknownStr
            album := unknownStr
            duration := 0
            bitrate := 0
            format := ((pathSuffix (String.toList "clip.mp4")).map Char.toUpper).drop 1 }) :=
  ⟨by decide, by decide,
   c10_other_extensions_fallback (String.toList "clip.mp4") (by decide) (by decide)
     (some ⟨some (String.toList "t"), none, none, 3, 128⟩) none none none⟩

/-!
### `copy_files_to_media_directory` (file_manager.py lines 116-187)

The filesystem is modelled as a partial map from paths (component lists) to
byte contents.  `Path(p).name` is the last component; the suffix of a path
is the suffix of its name.  `mkdir(parents=True, exist_ok=True)` only
touches directories and is a no-op in this file model.  `shutil.copy2`
writes the source bytes at the target path; the model's copy never raises,
so the per-item `except` branch of the loop is unreachable.  Each success
entry carries the metadata extracted from the freshly copied target file,
through the same tag-reading oracle as `_extract_metadata`. -/

/-- Python `Path(p).name`: the final path component. -/
def pathBasename (p : List (List Char)) : List Char := p.getLastD []

def supported_audio : List (List Char) :=
  [String.toList ".mp3", String.toList ".flac", String.toList ".wav",
   String.toList ".m4a", String.toList ".aac"]

def supported_video : List (List Char) :=
  [String.toList ".mp4", String.toList ".mkv", String.toList ".avi",
   String.toList ".webm", String.toList ".mov"]

inductive CopyError where
  | notFound
  | unsupported
deriving DecidableEq

/-- The result dict of the copy loop, together with the filesystem state. -/
structure CopyState where
  fs : List (List Char) → Option (List Nat)
  success : List (List (List Char) × List (List Char) × Metadata)
  failed : List (List (List Char) × CopyError)
  duplicates : List (List (List Char) × List (List Char))
  total_processed : Nat

/-- The target directory chosen for a supported source file, and the target
path `target_dir / source.name`. -/
def targetPathOf (mediaRoot : List (List Char)) (playlist : List Char)
    (source : List (List Char)) : List (List Char) :=
  let name := pathBasename source
  let sfx := (pathSuffix name).map Char.toLower
  if sfx ∈ supported_audio then
    if sfx = String.toList ".mp3" then
      mediaRoot ++ [playlist, String.toList "mp3", name]
    else if sfx = String.toList ".flac" then
      mediaRoot ++ [playlist, String.toList "flac", name]
    else
      mediaRoot ++ [playlist, String.toList "mp3", name]
  else
    mediaRoot ++ [playlist, String.toList "video", name]

/-- One iteration of the copy loop. -/
def copyStep (mediaRoot : List (List Char)) (playlist : List Char)
    (tagEnv : List (List Char) → Option Mp3Tags × Option FlacTags)
    (st : CopyState) (source : List (List Char)) : CopyState :=
  let st := { st with total_processed := st.total_processed + 1 }
  if (st.fs source).isNone then
    { st with failed := st.failed ++ [(source, CopyError.notFound)] }
  else
    let sfx := (pathSuffix (pathBasename source)).map Char.toLower
    if sfx ∈ supported_audio ∨ sfx ∈ supported_video then
      let target := targetPathOf mediaRoot playlist source
      if (st.fs target).isSome then
        { st with duplicates := st.duplicates ++ [(source, target)] }
      else
        { st with
          fs := fun p => if p = target then st.fs source else st.fs p
          success := st.success ++ [(source, target,
            _extract_metadata (pathBasename source) (tagEnv target).1
              (tagEnv target).2)] }
    else
      { st with failed := st.failed ++ [(source, CopyError.unsupported)] }

/-- `FileManager.copy_files_to_media_directory` over an initial filesystem. -/
def copy_files_to_media_directory (mediaRoot : List (List Char))
    (playlist : List Char)
    (tagEnv : List (List Char) → Option Mp3Tags × Option FlacTags)
    (fs₀ : List (List Char) → Option (List Nat))
    (sources : List (List (List Char))) : CopyState :=
  sources.foldl (copyStep mediaRoot playlist tagEnv)
    { fs := fs₀, success := [], failed := [], duplicates := [], total_processed := 0 }

theorem copyStep_fs_preserve (mediaRoot : List (List Char)) (playlist : List Char)
    (tagEnv : List (List Char) → Option Mp3Tags × Option FlacTags)
    (st : CopyState) (source p : List (List Char))
    (hp : (st.fs p).isSome) :
    (copyStep mediaRoot playlist tagEnv st source).fs p = st.fs p := by
  unfold copyStep
  dsimp only
  split
  · rfl
  · split
    · split
      · rfl
      · next hfree =>
        dsimp only
        split
        · next hpt =>
          subst hpt
          rw [Option.not_isSome_iff_eq_none] at hfree
          rw [hfree] at hp
          cases hp
        · rfl
    · rfl

theorem copyFold_fs_preserve (mediaRoot : List (List Char)) (playlist : List Char)
    (tagEnv : List (List Char) → Option Mp3Tags × Option FlacTags) :
    ∀ (L : List (List (List Char))) (st : CopyState) (p : List (List Char)),
      (st.fs p).isSome →
      (L.foldl (copyStep mediaRoot playlist tagEnv) st).fs p = st.fs p := by
  intro L
  induction L with
  | nil => intro st p _; rfl
  | cons x xs ih =>
    intro st p hp
    rw [List.foldl_cons]
    have hstep := copyStep_fs_preserve mediaRoot playlist tagEnv st x p hp
    rw [ih (copyStep mediaRoot playlist tagEnv st x) p (by rw [hstep]; exact hp), hstep]

theorem copyStep_total (mediaRoot : List (List Char)) (playlist : List Char)
    (tagEnv : List (List Char) → Option Mp3Tags × Option FlacTags)
    (st : CopyState) (source : List (List Char)) :
    (copyStep mediaRoot playlist tagEnv st source).total_processed
      = st.total_processed + 1 := by
  unfold copyStep
  dsimp only
  split
  · rfl
  · split
    · split
      · rfl
      · rfl
    · rfl

theorem copyFold_total (mediaRoot : List (List Char)) (playlist : List Char)
    (tagEnv : List (List Char) → Option Mp3Tags × Option FlacTags) :
    ∀ (L : List (List (List Char))) (st : CopyState),
      (L.foldl (copyStep mediaRoot playlist tagEnv) st).total_processed
        = st.total_processed + L.length := by
  intro L
  induction L with
  | nil => intro st; rfl
  | cons x xs ih =>
    intro st
    rw [List.foldl_cons, ih, copyStep_total]
    simp [Nat.add_comm, Nat.add_assoc]
    omega

theorem copyStep_filters_other (mediaRoot : List (List Char)) (playlist : List Char)
    (tagEnv : List (List Char) → Option Mp3Tags × Option FlacTags)
    (st : CopyState) (source src : List (List Char)) (hne : source ≠ src) :
    (copyStep mediaRoot playlist tagEnv st source).duplicates.filter
        (fun d => d.1 = src)
      = st.duplicates.filter (fun d => d.1 = src)
    ∧ (copyStep mediaRoot playlist tagEnv st source).success.filter
        (fun d => d.1 = src)
      = st.success.filter (fun d => d.1 = src) := by
  unfold copyStep
  dsimp only
  split
  · exact ⟨rfl, rfl⟩
  · split
    · split
      · refine ⟨?_, rfl⟩
        rw [List.filter_append]
        rw [show List.filter (fun d => decide (d.1 = src))
            [(source, targetPathOf mediaRoot playlist source)] = [] from by
          rw [List.filter_cons, if_neg (by simpa using hne)]
          rfl]
        rw [List.append_nil]
      · refine ⟨rfl, ?_⟩
        rw [List.filter_append]
        rw [show List.filter (fun d => decide (d.1 = src))
            [(source, targetPathOf mediaRoot playlist source,
              _extract_metadata (pathBasename source)
                (tagEnv (targetPathOf mediaRoot playlist source)).1
                (tagEnv (targetPathOf mediaRoot playlist source)).2)] = [] from by
          rw [List.filter_cons, if_neg (by simpa using hne)]
          rfl]
        rw [List.append_nil]
    · exact ⟨rfl, rfl⟩

theorem copyFold_filters_other (mediaRoot : List (List Char)) (playlist : List Char)
    (tagEnv : List (List Char) → Option Mp3Tags × Option FlacTags) :
    ∀ (L : List (List (List Char))) (st : CopyState) (src : List (List Char)),
      src ∉ L →
      (L.foldl (copyStep mediaRoot playlist tagEnv) st).duplicates.filter
          (fun d => d.1 = src)
        = st.duplicates.filter (fun d => d.1 = src)
      ∧ (L.foldl (copyStep mediaRoot playlist tagEnv) st).success.filter
          (fun d => d.1 = src)
        = st.success.filter (fun d => d.1 = src) := by
  intro L
  induction L with
  | nil => intro st src _; exact ⟨rfl, rfl⟩
  | cons x xs ih =>
    intro st src hns
    rw [List.foldl_cons]
    have hne : x ≠ src := by
      intro hcon
      exact hns (hcon ▸ List.mem_cons_self _ _)
    obtain ⟨hd, hs⟩ := copyStep_filters_other mediaRoot playlist tagEnv st x src hne
    obtain ⟨hd', hs'⟩ := ih (copyStep mediaRoot playlist tagEnv st x) src
      (fun hcon => hns (List.mem_cons_of_mem _ hcon))
    exact ⟨by rw [hd', hd], by rw [hs', hs]⟩

theorem copyStep_duplicate (mediaRoot : List (List Char)) (playlist : List Char)
    (tagEnv : List (List Char) → Option Mp3Tags × Option FlacTags)
    (st : CopyState) (src : List (List Char))
    (hex : (st.fs src).isSome)
    (hsupp : (pathSuffix (pathBasename src)).map Char.toLower ∈ supported_audio
      ∨ (pathSuffix (pathBasename src)).map Char.toLower ∈ supported_video)
    (htgt : (st.fs (targetPathOf mediaRoot playlist src)).isSome) :
    copyStep mediaRoot playlist tagEnv st src
      = { st with
          total_processed := st.total_processed + 1
          duplicates := st.duplicates
            ++ [(src, targetPathOf mediaRoot playlist src)] } := by
  unfold copyStep
  dsimp only
  rw [if_neg (by rw [Option.isNone_iff_eq_none]; intro hcon; rw [hcon] at hex; cases hex)]
  rw [if_pos hsupp, if_pos htgt]

/-- C7: in a copy batch, a source file occurring once whose target path
already exists yields exactly one duplicates entry and no success entry for
that file, the pre-existing target and the source are left unchanged, and
the whole batch is still processed. -/
theorem c7_duplicate_handling (mediaRoot : List (List Char)) (playlist : List Char)
    (tagEnv : List (List Char) → Option Mp3Tags × Option FlacTags)
    (fs₀ : List (List Char) → Option (List Nat))
    (sources : List (List (List Char))) (src : List (List Char))
    (hmem : src ∈ sources) (hcount : sources.count src = 1)
    (hex : (fs₀ src).isSome)
    (hsupp : (pathSuffix (pathBasename src)).map Char.toLower ∈ supported_audio
      ∨ (pathSuffix (pathBasename src)).map Char.toLower ∈ supported_video)
    (htgt : (fs₀ (targetPathOf mediaRoot playlist src)).isSome) :
    ((copy_files_to_media_directory mediaRoot playlist tagEnv fs₀ sources).duplicates.filter
        (fun d => d.1 = src)).length = 1
    ∧ ((copy_files_to_media_directory mediaRoot playlist tagEnv fs₀ sources).success.filter
        (fun d => d.1 = src)).length = 0
    ∧ (copy_files_to_media_directory mediaRoot playlist tagEnv fs₀ sources).fs
        (targetPathOf mediaRoot playlist src)
      = fs₀ (targetPathOf mediaRoot playlist src)
    ∧ (copy_files_to_media_directory mediaRoot playlist tagEnv fs₀ sources).fs src
      = fs₀ src
    ∧ (copy_files_to_media_directory mediaRoot playlist tagEnv fs₀ sources).total_processed
      = sources.length := by
  obtain ⟨pre, post, hdecomp⟩ := List.append_of_mem hmem
  have hcounts : pre.count src = 0 ∧ post.count src = 0 := by
    rw [hdecomp] at hcount
    rw [List.count_append, List.count_cons_self] at hcount
    constructor <;> omega
  have hpre : src ∉ pre := by
    intro hcon
    have := List.count_pos_iff.mpr hcon
    omega
  have hpost : src ∉ post := by
    intro hcon
    have := List.count_pos_iff.mpr hcon
    omega
  set init : CopyState :=
    { fs := fs₀, success := [], failed := [], duplicates := [], total_processed := 0 }
    with hinit
  have hfold : copy_files_to_media_directory mediaRoot playlist tagEnv fs₀ sources
      = post.foldl (copyStep mediaRoot playlist tagEnv)
          (copyStep mediaRoot playlist tagEnv
            (pre.foldl (copyStep mediaRoot playlist tagEnv) init) src) := by
    unfold copy_files_to_media_directory
    rw [hdecomp, List.foldl_append, List.foldl_cons]
  set st₁ := pre.foldl (copyStep mediaRoot playlist tagEnv) init with hst₁
  have hfs₁_src : st₁.fs src = fs₀ src :=
    copyFold_fs_preserve mediaRoot playlist tagEnv pre init src hex
  have hfs₁_tgt : st₁.fs (targetPathOf mediaRoot playlist src)
      = fs₀ (targetPathOf mediaRoot playlist src) :=
    copyFold_fs_preserve mediaRoot playlist tagEnv pre init _ htgt
  have hstep := copyStep_duplicate mediaRoot playlist tagEnv st₁ src
    (by rw [hfs₁_src]; exact hex) hsupp
    (by rw [hfs₁_tgt]; exact htgt)
  set st₂ := copyStep mediaRoot playlist tagEnv st₁ src with hst₂
  have hfs₂_src : st₂.fs src = fs₀ src := by
    rw [hstep]
    exact hfs₁_src
  have hfs₂_tgt : st₂.fs (targetPathOf mediaRoot playlist src)
      = fs₀ (targetPathOf mediaRoot playlist src) := by
    rw [hstep]
    exact hfs₁_tgt
  obtain ⟨hdup₁, hsuc₁⟩ :=
    copyFold_filters_other mediaRoot playlist tagEnv pre init src hpre
  obtain ⟨hdup₃, hsuc₃⟩ :=
    copyFold_filters_other mediaRoot playlist tagEnv post st₂ src hpost
  refine ⟨?_, ?_, ?_, ?_, ?_⟩
  · rw [hfold, hdup₃, hstep]
    dsimp only
    rw [List.filter_append, hst₁, hdup₁]
    rw [List.filter_cons, if_pos (by simp), List.filter_nil]
    rfl
  · rw [hfold, hsuc₃, hstep]
    dsimp only
    rw [hst₁, hsuc₁]
    rfl
  · rw [hfold,
      copyFold_fs_preserve mediaRoot playlist tagEnv post st₂ _
        (by rw [hfs₂_tgt]; exact htgt)]
    exact hfs₂_tgt
  · rw [hfold,
      copyFold_fs_preserve mediaRoot playlist tagEnv post st₂ src
        (by rw [hfs₂_src]; exact hex)]
    exact hfs₂_src
  · rw [hfold, copyFold_total, hstep]
    dsimp only
    rw [hst₁, copyFold_total, hinit]
    dsimp only
    rw [hdecomp, List.length_append, List.length_cons]
    omega

/-- A concrete source path and filesystem for exercising the duplicate branch:
the source exists and its target under the media root also already exists. -/
def c7src : List (List Char) := [String.toList "a.mp3"]

def c7fs : List (List Char) → Option (List Nat) := fun p =>
  if p = c7src then some [0]
  else if p = [String.toList "m", String.toList "p",
      String.toList "mp3", String.toList "a.mp3"] then some [1]
  else none

/-- C7 witness: the duplicate-handling theorem instantiated on a one-element
batch whose target file already exists. -/
theorem c7_duplicate_handling_witness :
    ((copy_files_to_media_directory [String.toList "m"] (String.toList "p")
        (fun _ => (none, none)) c7fs [c7src]).duplicates.filter
        (fun d => d.1 = c7src)).length = 1
    ∧ ((copy_files_to_media_directory [String.toList "m"] (String.toList "p")
        (fun _ => (none, none)) c7fs [c7src]).success.filter
        (fun d => d.1 = c7src)).length = 0
    ∧ (copy_files_to_media_directory [String.toList "m"] (String.toList "p")
        (fun _ => (none, none)) c7fs [c7src]).fs
        (targetPathOf [String.toList "m"] (String.toList "p") c7src)
      = c7fs (targetPathOf [String.toList "m"] (String.toList "p") c7src)
    ∧ (copy_files_to_media_directory [String.toList "m"] (String.toList "p")
        (fun _ => (none, none)) c7fs [c7src]).fs c7src = c7fs c7src
    ∧ (copy_files_to_media_directory [String.toList "m"] (String.toList "p")
        (fun _ => (none, none)) c7fs [c7src]).total_processed
      = [c7src].length :=
  c7_duplicate_handling [String.toList "m"] (String.toList "p")
    (fun _ => (none, none)) c7fs [c7src] c7src
    (by decide) (by decide) (by decide) (by decide) (by decide)

end MediaMaestro
